import Mathlib

/-!
# jsplit: a verification development

Shallow embedding of `src/main.cpp` (the ndjson splitter) and theorems about it.

Conventions of the embedding.

* A C++ `std::string` is a Lean `String`, one `Char` per C++ `char`; `size()` is
  `String.length`.
* `size_t` arithmetic is arithmetic on `Nat` modulo `2 ^ 64`.
* A loop that may run forever takes a `fuel` argument and answers `Res.timeout`
  when the fuel is used up; reading through a null pointer or past the end of a
  container answers `Res.fault`.
* A C++ exception that nothing catches ends the process (`std::terminate`); the
  functions that can throw return `Except Exn _`.
* The libraries the program calls (`nlohmann::json`, `std::filesystem`,
  `std::ofstream`) are not part of the repository.  The JSON parser, the JSON
  serialiser and the file system are fields of `World`; the few library
  operations whose result the program's behaviour is read off from
  (`json::at`, the conversion to `std::string`, `path::operator/`, `std::getline`)
  are written out after their reference documentation.
* A `std::ofstream` buffers what is inserted: the bytes reach the file when the
  stream writes its buffer out or is destroyed.  The streams of the map are destroyed
  when `main` returns, and not when the process is ended by `std::terminate`.
-/

namespace Jsplit

/-! ## Results of partial computations -/

/-- Result of running a piece of code that may loop forever or have undefined behaviour. -/
inductive Res (α : Type) where
  /-- The code returned. -/
  | ok (a : α)
  /-- The fuel ran out before the code returned. -/
  | timeout
  /-- The code read through a null pointer or outside a container. -/
  | fault
  deriving Repr, DecidableEq

/-- Sequencing of partial computations. -/
def Res.bind {α β : Type} (r : Res α) (f : α → Res β) : Res β :=
  match r with
  | .ok a => f a
  | .timeout => .timeout
  | .fault => .fault

/-! ## Command line (lines 10-117) -/

/-- The enum `Program` (lines 10-14). -/
inductive Program where
  | ERROR
  | PRINT_HELP
  | EXECUTE
  deriving Repr, DecidableEq

/-- The loop of `split` (lines 19-29): `cur_str` is searched for `chr`; when it is not
found `cur_str` is pushed and the loop is left, otherwise `cur_str` is pushed and the
loop goes round again with `cur_str` unchanged (`cur_part` is built and dropped). -/
def split_loop (cur_str : String) (chr : Char) : Nat → List String → Res (List String)
  | 0, _ => .timeout
  | fuel + 1, parts =>
    if chr ∈ cur_str.toList then
      split_loop cur_str chr fuel (parts ++ [cur_str])
    else
      .ok (parts ++ [cur_str])

/-- The function `split` (lines 16-32). -/
def split (fuel : Nat) (str : String) (chr : Char) : Res (List String) :=
  split_loop str chr fuel []

/-- The struct `Args` (lines 34-42); `opts_done` is never read or written and is left out. -/
structure Args where
  filename : String := ""
  program_name : String := ""
  invalid_args : List String := []
  out_folder : Option String := none
  command : Program := .ERROR
  unique_path : List String := []
  deriving Repr, DecidableEq

/-- The character `key[0]` of a `const std::string`: the first character, or the
terminating NUL when the string is empty. -/
def first_char (key : String) : Char :=
  key.toList.headD (Char.ofNat 0)

/-- The method `Args::parse_option` (lines 71-97): the returned flag and the updated object. -/
def Args.parse_option (fuel : Nat) (self : Args) (arg : String) : Res (Bool × Args) :=
  (split fuel arg '=').bind fun res =>
    match res.get? 0 with
    | none => .fault
    | some key =>
      if first_char key = '-' then
        if res.length = 1 then
          if key = "--help" ∨ key = "-h" then
            .ok (true, { self with command := .PRINT_HELP })
          else
            .ok (true, { self with command := .ERROR, invalid_args := self.invalid_args ++ [arg] })
        else if key = "--out-folder" ∨ key = "-o" then
          match res.get? 1 with
          | none => .fault
          | some dir => .ok (true, { self with out_folder := some dir })
        else if res.length > 2 then
          .ok (true, { self with invalid_args := self.invalid_args ++ [arg] })
        else
          .ok (false, self)
      else
        .ok (false, self)

/-- The first loop of `Args::parse` (lines 48-54), over the arguments from `argv[i]` on:
it returns the index at which the loop is left and the updated object. -/
def Args.parse_options (fuel : Nat) : List String → Nat → Args → Res (Nat × Args)
  | [], i, self => .ok (i, self)
  | cur_arg :: rest, i, self =>
    (Args.parse_option fuel self cur_arg).bind fun r =>
      if r.1 then Args.parse_options fuel rest (i + 1) r.2 else .ok (i, r.2)

/-- The method `Args::parse` (lines 44-69) on a default-constructed object; `argc` is
`argv.length` and `argv[argc]` is the null pointer, so that reading `argv[i]` as a string
is a fault for `i ≥ argc`. -/
def Args.parse (fuel : Nat) (argv : List String) : Res Args :=
  match argv.get? 0 with
  | none => .fault
  | some prog =>
    let self : Args := { program_name := prog }
    (Args.parse_options fuel (argv.drop 1) 1 self).bind fun r =>
      let i := r.1
      let self := r.2
      if i > argv.length then
        .ok { self with command := .ERROR }
      else
        match argv.get? i with
        | none => .fault
        | some file =>
          .ok { self with
                filename := file,
                unique_path := self.unique_path ++ argv.drop (i + 1),
                command := .EXECUTE }

/-! ## JSON values and the routing key (lines 170-171) -/

/-- A decoded `nlohmann::json` value.  Objects are association lists searched from the
front; a `number_float` carries the bit pattern of its `double`. -/
inductive Json where
  | null
  | boolean (b : Bool)
  | number_integer (n : Int)
  | number_unsigned (n : Nat)
  | number_float (bits : Nat)
  | string (s : String)
  | array (elems : List Json)
  | object (members : List (String × Json))

/-- The exceptions the main loop can raise. -/
inductive Exn where
  /-- Thrown by `json::parse` on a text that is not JSON (parse_error.101). -/
  | parse_error
  /-- Thrown by `json::at(key)` on a value that is not an object (type_error.304). -/
  | type_error_304
  /-- Thrown by `json::at(key)` on an object without that key (out_of_range.403). -/
  | out_of_range_403
  /-- Thrown by the conversion to `std::string` of a value that is not a string
  (type_error.302). -/
  | type_error_302
  /-- Thrown by `std::map::at` on a key that is not in the map (`std::out_of_range`). -/
  | map_out_of_range
  deriving Repr, DecidableEq

/-- The member function `json::at(key)`. -/
def json_at (j : Json) (key : String) : Except Exn Json :=
  match j with
  | .object members =>
    match members.lookup key with
    | some v => .ok v
    | none => .error .out_of_range_403
  | _ => .error .type_error_304

/-- The implicit conversion of a `json` to `std::string`. -/
def json_to_string (j : Json) : Except Exn String :=
  match j with
  | .string s => .ok s
  | _ => .error .type_error_302

/-- The initialiser of `target_name` (line 171): `j.at("inparams").at("target")`
converted to `std::string`. -/
def extract_target (j : Json) : Except Exn String :=
  match json_at j "inparams" with
  | .error e => .error e
  | .ok inparams =>
    match json_at inparams "target" with
    | .error e => .error e
    | .ok target => json_to_string target

/-! ## Paths, the file system and output streams -/

/-- The operator `/` of `std::filesystem::path` on a POSIX system, on the native strings:
an absolute right operand replaces the left one; otherwise a separator is appended to the
left operand when it has a file name (it is not empty and does not end in a separator),
and then the right operand. -/
def path_join (dir : String) (p : String) : String :=
  if first_char p = '/' then p
  else if dir ≠ "" ∧ dir.toList.getLast? ≠ some '/' then dir ++ "/" ++ p
  else dir ++ p

/-- The path handed to `std::ofstream` for a routing key (lines 173-175). -/
def sink_path (out_folder : Option String) (target_name : String) : String :=
  let outfile_name := target_name ++ ".json"
  path_join (out_folder.getD ".") outfile_name

/-- Identity of a file of the file system: two paths that name the same file have the
same identity. -/
abbrev FileId := String

/-- Contents of the files: `none` for a file that does not exist.  A file holds the bytes
the streams have written to it; the bytes a stream still buffers are not in the file. -/
abbrev Disk := FileId → Option String

/-- Replace the contents of one file. -/
def Disk.set (d : Disk) (f : FileId) (c : String) : Disk :=
  fun g => if g = f then some c else d g

/-- The libraries and the operating system the program runs against.  `open_for_write`
and `write_ok` do not change during a run: the program creates regular files only.
How much a stream buffers and in which order the streams of the map are destroyed is
left to the C++ library by the standard: both are fields. -/
structure World where
  /-- The function `nlohmann::json::parse` on one line: `none` when it throws. -/
  json_parse : String → Option Json
  /-- The text `operator<<` produces for a decoded `json` (stream width 0). -/
  dump : Json → String
  /-- The function `std::filesystem::exists`. -/
  file_exists : String → Bool
  /-- The function `std::filesystem::is_regular_file`. -/
  is_regular_file : String → Bool
  /-- The bytes of a file opened for reading. -/
  read_file : String → String
  /-- The file a path opened with `O_WRONLY|O_CREAT|O_TRUNC` refers to, `none` when the
  open fails. -/
  open_for_write : String → Option FileId
  /-- Whether writing the given bytes to a file at the given offset succeeds. -/
  write_ok : FileId → Nat → String → Bool
  /-- The buffering of a `std::ofstream`: of the bytes it buffers followed by the bytes
  inserted, how many the stream writes to the file at this insertion; the others stay in
  its buffer. -/
  flushed : String → String → Nat
  /-- The bytes a stream keeps in its buffer when its write to the file fails, given
  the bytes it buffered and the bytes inserted. -/
  kept : String → String → String
  /-- The order in which the destructor of the map destroys its streams when `main`
  returns: whether the stream of the first key is destroyed before that of the second. -/
  destroyed_before : String → String → Bool

/-- A `std::ofstream`: the path it was opened with, the open file (`none` when the open
failed), whether the stream is still good, its position in the file, and the bytes
inserted that it buffers and has not written to the file. -/
structure Sink where
  path : String
  fd : Option FileId
  good : Bool
  offset : Nat
  pending : String
  deriving Repr, DecidableEq

/-- Contents of a file after writing `data` at `offset` (a gap is filled with NULs). -/
def pwrite (old : String) (offset : Nat) (data : String) : String :=
  String.mk (old.toList.take offset ++ List.replicate (offset - old.length) (Char.ofNat 0)
    ++ data.toList ++ old.toList.drop (offset + data.length))

/-- The constructor `std::ofstream(path)`: on success the file is created or truncated;
on failure the stream is left in a failed state and nothing is thrown. -/
def ofstream_open (w : World) (path : String) (disk : Disk) : Sink × Disk :=
  match w.open_for_write path with
  | some f =>
    ({ path := path, fd := some f, good := true, offset := 0, pending := "" }, disk.set f "")
  | none =>
    ({ path := path, fd := none, good := false, offset := 0, pending := "" }, disk)

/-- One insertion `stream << data`: a stream that is not good ignores it.  The bytes go
to the buffer of the stream; the stream writes as many of the buffered and inserted
bytes as its buffering decides to the file, at its own position (the file is not opened
in append mode), and keeps the others.  A failing write makes the stream bad and
leaves in the buffer what the library keeps there; nothing is thrown. -/
def ofstream_insert (w : World) (sink : Sink) (data : String) (disk : Disk) : Sink × Disk :=
  if sink.good then
    match sink.fd with
    | none => (sink, disk)
    | some f =>
      let all := sink.pending ++ data
      let out := String.mk (all.toList.take (w.flushed sink.pending data))
      let rest := String.mk (all.toList.drop (w.flushed sink.pending data))
      if out = "" then
        ({ sink with pending := all }, disk)
      else if w.write_ok f sink.offset out then
        ({ sink with offset := sink.offset + out.length, pending := rest },
          disk.set f (pwrite ((disk f).getD "") sink.offset out))
      else
        ({ sink with good := false, pending := w.kept sink.pending data }, disk)
  else
    (sink, disk)

/-- The destructor of a `std::ofstream`: the bytes still buffered are written to the file
at the position of the stream; a failing write goes unnoticed. -/
def ofstream_close (w : World) (sink : Sink) (disk : Disk) : Disk :=
  match sink.fd with
  | none => disk
  | some f =>
    if sink.pending = "" then disk
    else if w.write_ok f sink.offset sink.pending then
      disk.set f (pwrite ((disk f).getD "") sink.offset sink.pending)
    else disk

/-! ## The main loop (lines 161-183) -/

/-- What the program does, in order: a record of the statements executed. -/
inductive Event where
  /-- A `std::ofstream` was constructed for a key at a path (line 174). -/
  | opened (key : String) (path : String)
  /-- The statement of line 177 was executed for a key with this text
  (the serialised record and the newline). -/
  | wrote (key : String) (text : String)
  /-- The function `print_progress` was called (line 181). -/
  | progress (filesize : Nat) (pos : Nat) (key : String)
  /-- The method `print_help` was called, with these `invalid_args`. -/
  | help (invalid_args : List String)
  /-- A diagnostic was written to standard error (lines 151 and 156). -/
  | diagnostic (text : String)
  deriving Repr, DecidableEq

/-- Whether an event is a call of `print_help`. -/
def Event.is_help : Event → Bool
  | .help _ => true
  | _ => false

/-- The map `outfiles` as an association list in order of insertion (the program never
iterates over it). -/
abbrev Outfiles := List (String × Sink)

/-- The member function `std::map::find`, `none` standing for `end()`. -/
def map_find (m : Outfiles) (key : String) : Option Sink :=
  m.lookup key

/-- The assignment `m[key] = sink`: the entry is replaced when the key is present and
added otherwise. -/
def map_assign (m : Outfiles) (key : String) (sink : Sink) : Outfiles :=
  match m with
  | [] => [(key, sink)]
  | e :: rest => if e.1 = key then (key, sink) :: rest else e :: map_assign rest key sink

/-- The variables of `main` that the loop changes, the files, and the record of events. -/
structure State where
  outfiles : Outfiles
  disk : Disk
  pos : Nat
  trace : List Event

/-- The state in which the loop is entered. -/
def State.fresh (disk : Disk) : State :=
  { outfiles := [], disk := disk, pos := 0, trace := [] }

/-- The number of values of `size_t`. -/
def SIZE_RANGE : Nat := 2 ^ 64

/-- Lines 170-171 of the loop body: the line is decoded and the routing key extracted;
either step may throw. -/
def decode_line (w : World) (line : String) : Except Exn (String × Json) :=
  match w.json_parse line with
  | none => .error .parse_error
  | some j =>
    match extract_target j with
    | .error e => .error e
    | .ok target_name => .ok (target_name, j)

/-- Lines 172-176 of the loop body: when the map has no sink for the key, a stream is
opened on `out_folder / (target_name + ".json")` and assigned to `outfiles[target_name]`. -/
def ensure_sink (w : World) (out_folder : Option String) (s : State)
    (target_name : String) : State :=
  if (map_find s.outfiles target_name).isNone then
    let opened := ofstream_open w (sink_path out_folder target_name) s.disk
    { s with
      outfiles := map_assign s.outfiles target_name opened.1,
      disk := opened.2,
      trace := s.trace ++ [.opened target_name (sink_path out_folder target_name)] }
  else s

/-- Lines 177-181 of the loop body, `sink` being the stream `outfiles.at(target_name)`:
the record and a newline are inserted into the stream, `pos` grows by the size of the
line and the progress is reported. -/
def write_record (w : World) (filesize : Nat) (s : State) (line_size : Nat)
    (target_name : String) (j : Json) (sink : Sink) : State :=
  let r1 := ofstream_insert w sink (w.dump j) s.disk
  let r2 := ofstream_insert w r1.1 "\n" r1.2
  let pos := (s.pos + line_size) % SIZE_RANGE
  { outfiles := map_assign s.outfiles target_name r2.1,
    disk := r2.2,
    pos := pos,
    trace := s.trace ++ [.wrote target_name (w.dump j ++ "\n"),
                         .progress filesize pos target_name] }

/-- Lines 172-181 of the loop body, for a line of `line_size` characters that decoded to
`j` with routing key `target_name`.  An exception leaves with the state reached when it
is thrown. -/
def deliver (w : World) (out_folder : Option String) (filesize : Nat) (s : State)
    (line_size : Nat) (target_name : String) (j : Json) : Except (Exn × State) State :=
  let s1 := ensure_sink w out_folder s target_name
  match map_find s1.outfiles target_name with
  | none => .error (.map_out_of_range, s1)
  | some sink => .ok (write_record w filesize s1 line_size target_name j sink)

/-- The body of the loop of `main` (lines 170-181) for one line. -/
def loop_body (w : World) (out_folder : Option String) (filesize : Nat) (s : State)
    (line : String) : Except (Exn × State) State :=
  match decode_line w line with
  | .error e => .error (e, s)
  | .ok (target_name, j) => deliver w out_folder filesize s line.length target_name j

/-- How the process ends. -/
inductive Termination where
  /-- The function `main` returned this status. -/
  | returned (status : Nat)
  /-- An exception was not caught: `std::terminate` aborts the process. -/
  | terminated (e : Exn)
  deriving Repr, DecidableEq

/-- The constant `EXIT_SUCCESS`. -/
def EXIT_SUCCESS : Nat := 0

/-- The constant `EXIT_FAILURE`. -/
def EXIT_FAILURE : Nat := 1

/-- The status a parent process sees: that of `main`, or 134 (128 + SIGABRT) after
`std::terminate`. -/
def exit_status : Termination → Nat
  | .returned status => status
  | .terminated _ => 134

/-- The lines `std::getline` delivers from the bytes of a file, `cur` holding the
characters of the current line in reverse: a line ends at a newline, which is dropped, or
at the end of the file; at the end of the file an empty current line is no line. -/
def read_lines_from (cur : List Char) : List Char → List String
  | [] => if cur.isEmpty then [] else [String.mk cur.reverse]
  | c :: rest =>
    if c = '\n' then String.mk cur.reverse :: read_lines_from [] rest
    else read_lines_from (c :: cur) rest

/-- The lines the loop condition `std::getline(file, line)` delivers, in order. -/
def read_lines (input : String) : List String :=
  read_lines_from [] input.toList

/-- The loop of `main` (lines 169-182) over the lines still to read; falling off the end
of `main` returns 0. -/
def main_loop (w : World) (out_folder : Option String) (filesize : Nat) :
    List String → State → State × Termination
  | [], s => (s, .returned 0)
  | line :: rest, s =>
    match loop_body w out_folder filesize s line with
    | .error (e, s1) => (s1, .terminated e)
    | .ok s1 => main_loop w out_folder filesize rest s1

/-- The destructor of the map `outfiles`: its streams are destroyed one after the other,
in the order of the library. -/
def destroy_streams (w : World) (m : Outfiles) (disk : Disk) : Disk :=
  (m.insertionSort fun a b => w.destroyed_before a.1 b.1 = true).foldl
    (fun d e => ofstream_close w e.2 d) disk

/-- The end of the process after the loop: when `main` returns, the map is destroyed and
its streams write their buffers to the files; after `std::terminate` no destructor
runs and what the streams buffer is lost.  The state keeps the map as the loop left it. -/
def finish (w : World) (r : State × Termination) : State × Termination :=
  match r.2 with
  | .returned _ => ({ r.1 with disk := destroy_streams w r.1.outfiles r.1.disk }, r.2)
  | .terminated _ => r

/-- Lines 161-183 of `main` on an input file with the given bytes. -/
def run (w : World) (out_folder : Option String) (input : String) (disk : Disk) :
    State × Termination :=
  finish w
    (main_loop w out_folder (input.length % SIZE_RANGE) (read_lines input) (State.fresh disk))

/-- The function `main` (lines 136-183). -/
def main (w : World) (fuel : Nat) (argv : List String) (disk : Disk) :
    Res (State × Termination) :=
  (Args.parse fuel argv).bind fun args =>
    let s0 := State.fresh disk
    match args.command with
    | .ERROR => .ok ({ s0 with trace := [.help args.invalid_args] }, .returned EXIT_FAILURE)
    | .PRINT_HELP => .ok ({ s0 with trace := [.help args.invalid_args] }, .returned EXIT_SUCCESS)
    | .EXECUTE =>
      if !w.file_exists args.filename then
        .ok ({ s0 with trace := [.diagnostic
            ("Could not open file: " ++ args.filename ++ ". File does not exist.\n")] },
          .returned EXIT_FAILURE)
      else if !w.is_regular_file args.filename then
        .ok ({ s0 with trace := [.diagnostic
            ("Could not open file: " ++ args.filename ++ ". Not a file.\n")] },
          .returned EXIT_FAILURE)
      else
        .ok (run w args.out_folder (w.read_file args.filename) disk)

/-! ## A concrete world for the examples -/

/-- The record with routing key `key` and nothing else. -/
def record (key : String) : Json :=
  .object [("inparams", .object [("target", .string key)])]

/-- The compact JSON text of `record key`, for a key that needs no escaping. -/
def record_text (key : String) : String :=
  "\x7b\"inparams\":\x7b\"target\":\"" ++ key ++ "\"\x7d\x7d"

/-- The routing keys of the examples. -/
def demo_keys : List String := ["a", "b", "./a", "x/y", "/abs"]

/-- A fragment of `json::parse`: the texts of the records of the examples and the record
without routing field are decoded, every other line is taken for a text that is not JSON
(the examples use it on such lines only). -/
def demo_parse (line : String) : Option Json :=
  if line = "\x7b\"id\":1\x7d" then some (.object [("id", .number_unsigned 1)])
  else (demo_keys.find? fun key => record_text key = line).map record

/-- A fragment of the serialiser: right on the records of the examples. -/
def demo_dump : Json → String
  | .object [("inparams", .object [("target", .string key)])] => record_text key
  | .object [("id", .number_unsigned 1)] => "\x7b\"id\":1\x7d"
  | _ => "null"

/-- Drop the leading `./` components of a path. -/
def strip_dots : List Char → List Char
  | '.' :: '/' :: rest => strip_dots rest
  | p => p

/-- Opening a path for writing in a working directory without subdirectories and with
write permission: a relative path without further separators names a file of the
directory, every other open fails. -/
def demo_open (path : String) : Option FileId :=
  let name := strip_dots path.toList
  if '/' ∈ name ∨ name = [] then none else some (String.mk name)

/-- The world of the examples: every write succeeds, `in.json` is the one input file, a
stream buffers up to 8191 bytes and writes all it holds when more arrive, a failed write
leaves the buffer as it was, and the map destroys its streams from the greatest key to
the least. -/
def demo (input : String) : World where
  json_parse := demo_parse
  dump := demo_dump
  file_exists := fun p => p = "in.json"
  is_regular_file := fun p => p = "in.json"
  read_file := fun _ => input
  open_for_write := demo_open
  write_ok := fun _ _ _ => true
  flushed := fun pending data =>
    if (pending ++ data).length ≤ 8191 then 0 else (pending ++ data).length
  kept := fun pending _ => pending
  destroyed_before := fun a b => decide (b.toList < a.toList)

/-- A disk without files. -/
def empty_disk : Disk := fun _ => none

/-! ## Vocabulary of the specification -/

/-- Whether a line decodes to a record with a routing key. -/
def decodes (w : World) (line : String) : Bool :=
  match decode_line w line with
  | .ok _ => true
  | .error _ => false

/-- An input all of whose lines decode to records with a routing key. -/
def valid_lines (w : World) (lines : List String) : Prop :=
  lines.all (decodes w) = true

instance (w : World) (lines : List String) : Decidable (valid_lines w lines) := by
  unfold valid_lines; infer_instance

/-- The routing keys and records of the lines before the first line that does not decode,
in input order. -/
def routed (w : World) : List String → List (String × Json)
  | [] => []
  | line :: rest =>
    match decode_line w line with
    | .ok r => r :: routed w rest
    | .error _ => []

/-- The lines before the first line that does not decode. -/
def accepted (w : World) : List String → List String
  | [] => []
  | line :: rest => if decodes w line then line :: accepted w rest else []

/-- The routing keys of the decoded lines, in input order. -/
def keys_of (w : World) (lines : List String) : List String :=
  (routed w lines).map Prod.fst

/-- The texts the program has to write for the records with routing key `K`: each record
serialised and followed by a newline, in input order. -/
def texts_for (w : World) (K : String) (rs : List (String × Json)) : List String :=
  (rs.filter fun r => r.1 = K).map fun r => w.dump r.2 ++ "\n"

/-- The texts written to the sink of `K`, in order. -/
def written_to (K : String) : List Event → List String
  | [] => []
  | .wrote key text :: rest =>
    if key = K then text :: written_to K rest else written_to K rest
  | _ :: rest => written_to K rest

/-- Whether an event is the opening of the sink of `K` or a write to it. -/
def about_sink (K : String) : Event → Bool
  | .opened key _ => key = K
  | .wrote key _ => key = K
  | _ => false

/-- The files the sinks of a map were opened on, each listed once. -/
def files_created (m : Outfiles) : List FileId :=
  (m.filterMap fun e => e.2.fd).dedup

/-- The number of openings of a sink for `K` among the events. -/
def opens_of (K : String) (trace : List Event) : Nat :=
  trace.countP fun e =>
    match e with
    | .opened key _ => key = K
    | _ => false

/-- A file is opened on by a map of sinks when the sink of some key is open on it. -/
def opened_on (m : Outfiles) (g : FileId) : Prop :=
  ∃ k sink, map_find m k = some sink ∧ sink.fd = some g

/-- Two states reached from the disks `d1` and `d2` have the same sinks, the same
contents in every file a sink is open on, and the initial contents in every other file. -/
def same_outcome (d1 d2 : Disk) (s1 s2 : State) : Prop :=
  s1.outfiles = s2.outfiles ∧
  (∀ g, opened_on s1.outfiles g → s1.disk g = s2.disk g) ∧
  (∀ g, ¬ opened_on s1.outfiles g → s1.disk g = d1 g ∧ s2.disk g = d2 g)

/-! ## Inputs of the examples -/

/-- The scenario of the specification: records for `a`, `b`, `a`. -/
def input_three : String :=
  record_text "a" ++ "\n" ++ record_text "b" ++ "\n" ++ record_text "a" ++ "\n"

/-- Two routing keys that name the same file of the output directory. -/
def input_alias : String :=
  record_text "a" ++ "\n" ++ record_text "./a" ++ "\n"

/-- A routing key whose file lies in a directory that does not exist, then the key `a`. -/
def input_unopenable : String :=
  record_text "x/y" ++ "\n" ++ record_text "a" ++ "\n"

/-- A disk on which `a.json` exists with contents of an earlier run. -/
def stale_disk : Disk :=
  fun f => if f = "a.json" then some "stale\n" else none

/-- A routing key that begins with the path separator. -/
def input_absolute : String :=
  record_text "/abs" ++ "\n"

/-! ## Progress reporting (lines 119-134) -/

/-- The values `print_progress` computes and prints. -/
structure Progress where
  elapsed : ℚ
  avg : ℚ
  total_expected : ℚ
  left : ℚ
  percent : ℚ
  target_name : String
  deriving Repr, DecidableEq

/-- The function `print_progress` (lines 120-134), the time points and durations read
over exact rationals: `left` is the remaining time whose whole seconds are printed as
ETA, `percent` is the percentage printed. -/
def print_progress (cur start : ℚ) (filesize pos : Nat) (target_name : String) : Progress :=
  let elapsed := cur - start
  let avg := elapsed / (pos : ℚ)
  let total_expected := avg * (filesize : ℚ)
  let left := total_expected - elapsed
  { elapsed := elapsed,
    avg := avg,
    total_expected := total_expected,
    left := left,
    percent := (pos : ℚ) / (filesize : ℚ) * 100,
    target_name := target_name }

/-! ## Vocabulary of the specification: command line and progress -/

/-- Whether an argument starts with `-`. -/
def is_option (arg : String) : Bool :=
  first_char arg = '-'

/-- Whether an argument is `--help` or `-h`. -/
def is_help_option (arg : String) : Bool :=
  arg = "--help" ∨ arg = "-h"

/-- What `parse_option` does to the object for an argument that starts with `-` and has
no `=`: the help options set `command = PRINT_HELP`, every other one sets
`command = ERROR` and is recorded in `invalid_args`. -/
def apply_option (self : Args) (arg : String) : Args :=
  if is_help_option arg then { self with command := .PRINT_HELP }
  else { self with command := .ERROR, invalid_args := self.invalid_args ++ [arg] }

/-- The sum of the sizes of some lines, without their terminators. -/
def total_length (lines : List String) : Nat :=
  (lines.map String.length).sum

/-- The number of newline characters of an input. -/
def newlines (input : String) : Nat :=
  input.toList.count '\n'

/-- The arguments `filesize`, `pos` and `target_name` of the calls of `print_progress`,
in order. -/
def progress_calls : List Event → List (Nat × Nat × String)
  | [] => []
  | .progress filesize pos key :: rest => (filesize, pos, key) :: progress_calls rest
  | _ :: rest => progress_calls rest

/-- The world of the examples on a full disk, with streams that do not buffer: every
insertion is written at once and every write fails. -/
def demo_disk_full (input : String) : World :=
  { demo input with
    write_ok := fun _ _ _ => false
    flushed := fun pending data => (pending ++ data).length }

/-! ## Key extraction -/

/-- C3: key extraction succeeds with `key` exactly when the record is an object whose
member `inparams` is an object whose member `target` is the JSON string `key`, which is
returned unchanged; it throws when the record is not an object, when `inparams` is
absent, when `inparams` is not an object, when `target` is absent and when `target` is
not a string. -/
theorem extract_target_succeeds_iff (j : Json) :
    (∀ key, extract_target j = .ok key ↔
      ∃ members inner, j = .object members ∧
        members.lookup "inparams" = some (.object inner) ∧
        inner.lookup "target" = some (.string key)) ∧
    ((∀ members, j ≠ .object members) → extract_target j = .error .type_error_304) ∧
    (∀ members, j = .object members → members.lookup "inparams" = none →
      extract_target j = .error .out_of_range_403) ∧
    (∀ members v, j = .object members → members.lookup "inparams" = some v →
      (∀ inner, v ≠ .object inner) → extract_target j = .error .type_error_304) ∧
    (∀ members inner, j = .object members →
      members.lookup "inparams" = some (.object inner) → inner.lookup "target" = none →
      extract_target j = .error .out_of_range_403) ∧
    (∀ members inner t, j = .object members →
      members.lookup "inparams" = some (.object inner) → inner.lookup "target" = some t →
      (∀ text, t ≠ .string text) → extract_target j = .error .type_error_302) := by
  refine ⟨?_, ?_, ?_, ?_, ?_, ?_⟩
  · intro key
    constructor
    · intro h
      cases j <;> simp [extract_target, json_at] at h
      rename_i members
      cases hm : members.lookup "inparams" with
      | none => simp [hm] at h
      | some v =>
        simp only [hm] at h
        cases v <;> simp [json_at] at h
        rename_i inner
        cases hi : inner.lookup "target" with
        | none => simp [hi] at h
        | some t =>
          simp only [hi] at h
          cases t <;> simp [json_to_string] at h
          subst h
          exact ⟨members, inner, rfl, hm, hi⟩
    · rintro ⟨members, inner, rfl, hm, hi⟩
      simp [extract_target, json_at, json_to_string, hm, hi]
  · intro h
    cases j <;> simp [extract_target, json_at]
    rename_i members
    exact absurd rfl (h members)
  · rintro members rfl hm
    simp [extract_target, json_at, hm]
  · rintro members v rfl hm hv
    cases v <;> simp [extract_target, json_at, hm]
    rename_i inner
    exact absurd rfl (hv inner)
  · rintro members inner rfl hm hi
    simp [extract_target, json_at, hm, hi]
  · rintro members inner t rfl hm hi ht
    cases t <;> simp [extract_target, json_at, json_to_string, hm, hi]
    rename_i text
    exact absurd rfl (ht text)

/-! ## The empty input -/

/-- C6: on an input of 0 bytes the loop body is never run: the run ends by returning
status 0 in the state in which the loop was entered, with no sink in the map, no file
created or changed and no event (no open, no write, no progress report). -/
theorem run_empty_input (w : World) (out_folder : Option String) (disk : Disk) :
    read_lines "" = [] ∧
    run w out_folder "" disk = (State.fresh disk, .returned 0) ∧
    exit_status (run w out_folder "" disk).2 = 0 ∧
    (run w out_folder "" disk).1.outfiles = [] ∧
    files_created (run w out_folder "" disk).1.outfiles = [] ∧
    (run w out_folder "" disk).1.disk = disk ∧
    (run w out_folder "" disk).1.trace = [] := by
  refine ⟨rfl, rfl, rfl, rfl, rfl, rfl, rfl⟩

/-! ## The output path -/

/-- The file name `K + ".json"` is an absolute path exactly when `K` begins with the
separator. -/
theorem first_char_append_json (K : String) :
    first_char (K ++ ".json") = '/' ↔ first_char K = '/' := by
  rcases K with ⟨cs⟩
  cases cs with
  | nil => decide
  | cons c cs => simp [first_char]

/-! ## The map of sinks -/

theorem map_find_assign_self (m : Outfiles) (k : String) (v : Sink) :
    map_find (map_assign m k v) k = some v := by
  induction m with
  | nil => simp [map_assign, map_find, List.lookup]
  | cons e rest ih =>
    unfold map_assign
    by_cases h : e.1 = k
    · simp [h, map_find, List.lookup]
    · have hb : (k == e.1) = false := by simpa using fun h1 => h h1.symm
      simp only [h, if_false]
      rcases e with ⟨a, b⟩
      simp only [map_find, List.lookup, hb] at ih ⊢
      exact ih

theorem map_find_assign_ne (m : Outfiles) (k k1 : String) (v : Sink) (hne : k1 ≠ k) :
    map_find (map_assign m k v) k1 = map_find m k1 := by
  induction m with
  | nil =>
    have hb : (k1 == k) = false := by simpa using hne
    simp [map_assign, map_find, List.lookup, hb]
  | cons e rest ih =>
    unfold map_assign
    rcases e with ⟨a, b⟩
    by_cases h : a = k
    · subst h
      have hb : (k1 == a) = false := by simpa using hne
      simp [map_find, List.lookup, hb]
    · simp only [h, if_false]
      simp only [map_find, List.lookup] at ih ⊢
      cases hk : k1 == a <;> simp [ih]

theorem map_find_isNone_iff (m : Outfiles) (k : String) :
    (map_find m k).isNone = true ↔ k ∉ m.map Prod.fst := by
  induction m with
  | nil => simp [map_find, List.lookup]
  | cons e rest ih =>
    rcases e with ⟨a, b⟩
    simp only [map_find, List.lookup] at ih ⊢
    by_cases h : k = a
    · subst h
      simp
    · have hb : (k == a) = false := by simpa using h
      simp [hb, ih, h]

theorem keys_map_assign (m : Outfiles) (k : String) (v : Sink) :
    (map_assign m k v).map Prod.fst =
      if k ∈ m.map Prod.fst then m.map Prod.fst else m.map Prod.fst ++ [k] := by
  induction m with
  | nil => simp [map_assign]
  | cons e rest ih =>
    unfold map_assign
    by_cases h : e.1 = k
    · simp [h]
    · have h1 : ¬ k = e.1 := fun h1 => h h1.symm
      simp only [h, if_false, List.map_cons, List.mem_cons, h1, false_or, ih]
      split <;> simp

theorem mem_map_assign (m : Outfiles) (k : String) (v : Sink) (e : String × Sink)
    (he : e ∈ map_assign m k v) : e = (k, v) ∨ e ∈ m := by
  induction m with
  | nil => simp [map_assign] at he; exact Or.inl he
  | cons e1 rest ih =>
    unfold map_assign at he
    by_cases h : e1.1 = k
    · simp only [h, if_true, List.mem_cons] at he
      rcases he with he | he
      · exact Or.inl he
      · exact Or.inr (List.mem_cons_of_mem _ he)
    · simp only [h, if_false, List.mem_cons] at he
      rcases he with he | he
      · right; subst he; exact List.mem_cons_self _ _
      · rcases ih he with h2 | h2
        · exact Or.inl h2
        · exact Or.inr (List.mem_cons_of_mem _ h2)

/-! ## The loop body never fails after decoding -/

theorem ensure_sink_find (w : World) (D : Option String) (s : State) (k : String) :
    ∃ sink, map_find (ensure_sink w D s k).outfiles k = some sink := by
  unfold ensure_sink
  by_cases h : (map_find s.outfiles k).isNone = true
  · simp only [h, if_true]
    exact ⟨_, map_find_assign_self _ _ _⟩
  · simp only [h]
    cases hf : map_find s.outfiles k with
    | none => simp [hf] at h
    | some sink => exact ⟨sink, by simp [hf]⟩

theorem deliver_spec (w : World) (D : Option String) (fs : Nat) (s : State) (n : Nat)
    (k : String) (j : Json) :
    ∃ sink, map_find (ensure_sink w D s k).outfiles k = some sink ∧
      deliver w D fs s n k j = .ok (write_record w fs (ensure_sink w D s k) n k j sink) := by
  obtain ⟨sink, hs⟩ := ensure_sink_find w D s k
  exact ⟨sink, hs, by simp [deliver, hs]⟩

/-! ## Decoded prefixes -/

theorem decodes_iff (w : World) (line : String) :
    decodes w line = true ↔ ∃ k j, decode_line w line = .ok (k, j) := by
  unfold decodes
  cases h : decode_line w line with
  | error e => simp
  | ok r => exact ⟨fun _ => ⟨r.1, r.2, rfl⟩, fun _ => rfl⟩

theorem valid_lines_cons (w : World) (line : String) (rest : List String) :
    valid_lines w (line :: rest) ↔ decodes w line = true ∧ valid_lines w rest := by
  simp [valid_lines]

theorem valid_lines_append (w : World) (l1 l2 : List String) :
    valid_lines w (l1 ++ l2) ↔ valid_lines w l1 ∧ valid_lines w l2 := by
  simp [valid_lines]

theorem routed_append (w : World) (l1 l2 : List String) (h : valid_lines w l1) :
    routed w (l1 ++ l2) = routed w l1 ++ routed w l2 := by
  induction l1 with
  | nil => rfl
  | cons line rest ih =>
    rw [valid_lines_cons] at h
    obtain ⟨k, j, hd⟩ := (decodes_iff w line).1 h.1
    simp [routed, hd, ih h.2]

theorem routed_single (w : World) (line : String) (k : String) (j : Json)
    (hd : decode_line w line = .ok (k, j)) : routed w [line] = [(k, j)] := by
  simp [routed, hd]

theorem accepted_valid (w : World) (lines : List String) :
    valid_lines w (accepted w lines) := by
  induction lines with
  | nil => simp [accepted, valid_lines]
  | cons line rest ih =>
    unfold accepted
    by_cases h : decodes w line = true
    · simp only [h, if_true]
      exact (valid_lines_cons w line _).2 ⟨h, ih⟩
    · simp [h, valid_lines]

theorem accepted_of_valid (w : World) (lines : List String) (h : valid_lines w lines) :
    accepted w lines = lines := by
  induction lines with
  | nil => rfl
  | cons line rest ih =>
    rw [valid_lines_cons] at h
    simp [accepted, h.1, ih h.2]

theorem routed_accepted (w : World) (lines : List String) :
    routed w (accepted w lines) = routed w lines := by
  induction lines with
  | nil => rfl
  | cons line rest ih =>
    unfold accepted
    cases hd : decode_line w line with
    | error e => simp [decodes, hd, routed]
    | ok r => simp [decodes, hd, routed, ih]

/-! ## Induction over the main loop -/

/-- A property of the lines processed so far and the state that every execution of the
loop body on a decoded line preserves holds when the loop is left, of the lines before
the first one that does not decode. -/
theorem main_loop_invariant (w : World) (D : Option String) (fs : Nat)
    (P : List String → State → Prop)
    (hstep : ∀ ls s line k j sink, P ls s → valid_lines w ls →
      decode_line w line = .ok (k, j) →
      map_find (ensure_sink w D s k).outfiles k = some sink →
      P (ls ++ [line]) (write_record w fs (ensure_sink w D s k) line.length k j sink)) :
    ∀ lines ls s, valid_lines w ls → P ls s →
      P (ls ++ accepted w lines) (main_loop w D fs lines s).1 := by
  intro lines
  induction lines with
  | nil => intro ls s _ h; simpa [accepted, main_loop] using h
  | cons line rest ih =>
    intro ls s hv h
    cases hd : decode_line w line with
    | error e =>
      simpa [accepted, decodes, hd, main_loop, loop_body] using h
    | ok r =>
      rcases r with ⟨k, j⟩
      obtain ⟨sink, hs, hdel⟩ := deliver_spec w D fs s line.length k j
      have h1 := hstep ls s line k j sink h hv hd hs
      have hv1 : valid_lines w (ls ++ [line]) :=
        (valid_lines_append w ls [line]).2 ⟨hv, by simp [valid_lines, decodes, hd]⟩
      have h2 := ih (ls ++ [line]) _ hv1 h1
      simpa [accepted, decodes, hd, main_loop, loop_body, hdel] using h2

/-- The loop ends by returning 0 when every line decodes. -/
theorem main_loop_returns (w : World) (D : Option String) (fs : Nat) :
    ∀ lines s, valid_lines w lines → (main_loop w D fs lines s).2 = .returned 0 := by
  intro lines
  induction lines with
  | nil => intro s _; rfl
  | cons line rest ih =>
    intro s hv
    rw [valid_lines_cons] at hv
    obtain ⟨k, j, hd⟩ := (decodes_iff w line).1 hv.1
    obtain ⟨sink, _, hdel⟩ := deliver_spec w D fs s line.length k j
    simpa [main_loop, loop_body, hd, hdel] using ih _ hv.2

/-- The loop over a list of lines followed by further lines: when the first list is
processed without an exception the loop goes on from the state reached. -/
theorem main_loop_append (w : World) (D : Option String) (fs : Nat) :
    ∀ l1 l2 s, valid_lines w l1 →
      main_loop w D fs (l1 ++ l2) s = main_loop w D fs l2 (main_loop w D fs l1 s).1 := by
  intro l1
  induction l1 with
  | nil => intro l2 s _; rfl
  | cons line rest ih =>
    intro l2 s hv
    rw [valid_lines_cons] at hv
    obtain ⟨k, j, hd⟩ := (decodes_iff w line).1 hv.1
    obtain ⟨sink, _, hdel⟩ := deliver_spec w D fs s line.length k j
    simpa [main_loop, loop_body, hd, hdel] using ih l2 _ hv.2

/-! ## The end of the run -/

theorem finish_outfiles (w : World) (r : State × Termination) :
    (finish w r).1.outfiles = r.1.outfiles := by
  unfold finish
  split <;> rfl

theorem finish_trace (w : World) (r : State × Termination) :
    (finish w r).1.trace = r.1.trace := by
  unfold finish
  split <;> rfl

theorem finish_pos (w : World) (r : State × Termination) :
    (finish w r).1.pos = r.1.pos := by
  unfold finish
  split <;> rfl

theorem finish_snd (w : World) (r : State × Termination) : (finish w r).2 = r.2 := by
  unfold finish
  split <;> rfl

theorem finish_returned (w : World) (r : State × Termination) (c : Nat)
    (h : r.2 = .returned c) :
    (finish w r).1.disk = destroy_streams w r.1.outfiles r.1.disk := by
  unfold finish
  rw [h]

theorem finish_terminated (w : World) (r : State × Termination) (e : Exn)
    (h : r.2 = .terminated e) : finish w r = r := by
  unfold finish
  rw [h]

theorem run_outfiles (w : World) (D : Option String) (input : String) (disk : Disk) :
    (run w D input disk).1.outfiles =
      (main_loop w D (input.length % SIZE_RANGE) (read_lines input)
        (State.fresh disk)).1.outfiles :=
  finish_outfiles w _

theorem run_trace (w : World) (D : Option String) (input : String) (disk : Disk) :
    (run w D input disk).1.trace =
      (main_loop w D (input.length % SIZE_RANGE) (read_lines input)
        (State.fresh disk)).1.trace :=
  finish_trace w _

theorem run_pos (w : World) (D : Option String) (input : String) (disk : Disk) :
    (run w D input disk).1.pos =
      (main_loop w D (input.length % SIZE_RANGE) (read_lines input)
        (State.fresh disk)).1.pos :=
  finish_pos w _

theorem run_snd (w : World) (D : Option String) (input : String) (disk : Disk) :
    (run w D input disk).2 =
      (main_loop w D (input.length % SIZE_RANGE) (read_lines input)
        (State.fresh disk)).2 :=
  finish_snd w _

/-! ## One execution of the loop body: keys and events -/

theorem ensure_sink_keys (w : World) (D : Option String) (s : State) (k : String) :
    (ensure_sink w D s k).outfiles.map Prod.fst =
      if k ∈ s.outfiles.map Prod.fst then s.outfiles.map Prod.fst
      else s.outfiles.map Prod.fst ++ [k] := by
  unfold ensure_sink
  by_cases h : (map_find s.outfiles k).isNone = true
  · have h1 := (map_find_isNone_iff _ _).1 h
    simp only [h, if_true, keys_map_assign, h1, if_false]
  · have h1 : k ∈ s.outfiles.map Prod.fst := by
      by_contra hc
      exact h ((map_find_isNone_iff _ _).2 hc)
    simp only [h, h1, if_true]
    rfl

theorem ensure_sink_trace (w : World) (D : Option String) (s : State) (k : String) :
    (ensure_sink w D s k).trace =
      s.trace ++ (if k ∈ s.outfiles.map Prod.fst then [] else [.opened k (sink_path D k)]) := by
  unfold ensure_sink
  by_cases h : (map_find s.outfiles k).isNone = true
  · have h1 := (map_find_isNone_iff _ _).1 h
    simp only [h, if_true, h1, if_false]
  · have h1 : k ∈ s.outfiles.map Prod.fst := by
      by_contra hc
      exact h ((map_find_isNone_iff _ _).2 hc)
    simp [h, h1]

theorem mem_keys_ensure_sink (w : World) (D : Option String) (s : State) (k : String) :
    k ∈ (ensure_sink w D s k).outfiles.map Prod.fst := by
  rw [ensure_sink_keys]
  split
  · assumption
  · simp

theorem step_keys (w : World) (D : Option String) (fs : Nat) (s : State) (n : Nat)
    (k : String) (j : Json) (sink : Sink) :
    (write_record w fs (ensure_sink w D s k) n k j sink).outfiles.map Prod.fst =
      if k ∈ s.outfiles.map Prod.fst then s.outfiles.map Prod.fst
      else s.outfiles.map Prod.fst ++ [k] := by
  have h1 := mem_keys_ensure_sink w D s k
  simp only [write_record, keys_map_assign, h1, if_true]
  exact ensure_sink_keys w D s k

theorem step_trace (w : World) (D : Option String) (fs : Nat) (s : State) (n : Nat)
    (k : String) (j : Json) (sink : Sink) :
    (write_record w fs (ensure_sink w D s k) n k j sink).trace =
      s.trace ++ (if k ∈ s.outfiles.map Prod.fst then [] else [.opened k (sink_path D k)])
        ++ [.wrote k (w.dump j ++ "\n"),
            .progress fs (write_record w fs (ensure_sink w D s k) n k j sink).pos k] := by
  simp only [write_record, ensure_sink_trace]

theorem texts_for_append (w : World) (K : String) (rs : List (String × Json)) (k : String)
    (j : Json) :
    texts_for w K (rs ++ [(k, j)]) =
      texts_for w K rs ++ (if k = K then [w.dump j ++ "\n"] else []) := by
  unfold texts_for
  by_cases h : k = K <;> simp [List.filter_append, List.filter_cons, h]

theorem texts_for_of_not_mem (w : World) (K : String) (rs : List (String × Json))
    (h : K ∉ rs.map Prod.fst) : texts_for w K rs = [] := by
  unfold texts_for
  simp only [List.map_eq_nil_iff, List.filter_eq_nil_iff]
  intro r hr
  have : r.1 ≠ K := by
    intro hk
    exact h (by rw [← hk]; exact List.mem_map_of_mem _ hr)
  simpa using this

theorem written_to_append (K : String) (t1 t2 : List Event) :
    written_to K (t1 ++ t2) = written_to K t1 ++ written_to K t2 := by
  induction t1 with
  | nil => rfl
  | cons e rest ih =>
    cases e with
    | wrote key text =>
      simp only [List.cons_append, written_to]
      split <;> simp [ih]
    | _ => simpa [written_to] using ih

/-- The events of a loop that starts with an empty map and no event: the keys of the map
are the routing keys met, each once; the events about the sink of a key are its opening
followed by one write per record of that key, in input order. -/
theorem main_loop_events (w : World) (D : Option String) (fs : Nat) (lines : List String)
    (disk : Disk) :
    ((main_loop w D fs lines (State.fresh disk)).1.outfiles.map Prod.fst).Nodup ∧
    (∀ K, K ∈ (main_loop w D fs lines (State.fresh disk)).1.outfiles.map Prod.fst ↔
      K ∈ keys_of w lines) ∧
    (∀ K, (main_loop w D fs lines (State.fresh disk)).1.trace.filter (about_sink K) =
      if K ∈ keys_of w lines then
        .opened K (sink_path D K) :: (texts_for w K (routed w lines)).map (.wrote K)
      else []) ∧
    (∀ K, written_to K (main_loop w D fs lines (State.fresh disk)).1.trace =
      texts_for w K (routed w lines)) := by
  have key := main_loop_invariant w D fs
    (fun ls s =>
      (s.outfiles.map Prod.fst).Nodup ∧
      (∀ K, K ∈ s.outfiles.map Prod.fst ↔ K ∈ keys_of w ls) ∧
      (∀ K, s.trace.filter (about_sink K) =
        if K ∈ keys_of w ls then
          .opened K (sink_path D K) :: (texts_for w K (routed w ls)).map (.wrote K)
        else []) ∧
      (∀ K, written_to K s.trace = texts_for w K (routed w ls)))
    ?_ lines [] (State.fresh disk) (by simp [valid_lines]) ?_
  · have hka : keys_of w (accepted w lines) = keys_of w lines := by
      simp [keys_of, routed_accepted]
    simp only [List.nil_append] at key
    rw [hka, routed_accepted] at key
    exact key
  · intro ls s line k j sink ⟨hnd, hmem, hfil, hwr⟩ hv hd hs
    have hr : routed w (ls ++ [line]) = routed w ls ++ [(k, j)] := by
      rw [routed_append w ls [line] hv, routed_single w line k j hd]
    have hk : keys_of w (ls ++ [line]) = keys_of w ls ++ [k] := by
      simp [keys_of, hr]
    refine ⟨?_, ?_, ?_, ?_⟩
    · rw [step_keys]
      split
      · exact hnd
      · rename_i hnot
        exact List.Nodup.append hnd (List.nodup_singleton k) (by simpa using hnot)
    · intro K
      rw [step_keys, hk]
      split
      · rename_i hin
        rw [hmem K, List.mem_append, List.mem_singleton]
        constructor
        · exact Or.inl
        · rintro (h | h)
          · exact h
          · rw [h]; exact (hmem k).1 hin
      · simp [hmem K]
    · intro K
      rw [step_trace, hk, hr, texts_for_append]
      simp only [List.filter_append, hfil K, List.mem_append, List.mem_singleton]
      by_cases hKk : k = K
      · subst hKk
        by_cases hin : k ∈ s.outfiles.map Prod.fst
        · have hin1 := (hmem k).1 hin
          simp [hin, hin1, about_sink, List.filter_cons]
        · have hin1 : k ∉ keys_of w ls := fun h => hin ((hmem k).2 h)
          have ht := texts_for_of_not_mem w k (routed w ls) hin1
          simp [hin, hin1, about_sink, List.filter_cons, ht]
      · have hKk1 : ¬ K = k := fun h => hKk h.symm
        by_cases hin : k ∈ s.outfiles.map Prod.fst <;>
          simp [hin, hKk, hKk1, about_sink, List.filter_cons]
    · intro K
      rw [step_trace, hr, texts_for_append, written_to_append, written_to_append, hwr K]
      by_cases hKk : k = K
      · subst hKk
        by_cases hin : k ∈ s.outfiles.map Prod.fst <;> simp [hin, written_to]
      · by_cases hin : k ∈ s.outfiles.map Prod.fst <;> simp [hin, hKk, written_to]
  · simp [State.fresh, keys_of, routed, written_to, texts_for]

/-! ## One execution of the loop body: sinks and files -/

theorem take_append_drop_string (all : String) (n : Nat) :
    String.mk (all.toList.take n) ++ String.mk (all.toList.drop n) = all := by
  apply String.ext
  simp [String.data_append]

theorem ofstream_insert_path (w : World) (sink : Sink) (data : String) (disk : Disk) :
    (ofstream_insert w sink data disk).1.path = sink.path := by
  unfold ofstream_insert
  dsimp only
  split
  · split
    · rfl
    · split
      · rfl
      · split <;> rfl
  · rfl

theorem ofstream_insert_fd (w : World) (sink : Sink) (data : String) (disk : Disk) :
    (ofstream_insert w sink data disk).1.fd = sink.fd := by
  unfold ofstream_insert
  dsimp only
  split
  · split
    · rfl
    · split
      · rfl
      · split <;> rfl
  · rfl

theorem ofstream_insert_good (w : World) (sink : Sink) (data : String) (disk : Disk)
    (h : sink.good = false) : (ofstream_insert w sink data disk).1.good = false := by
  simp [ofstream_insert, h]

/-- A stream that is not good ignores an insertion. -/
theorem ofstream_insert_bad (w : World) (sink : Sink) (data : String) (disk : Disk)
    (h : sink.good = false) : ofstream_insert w sink data disk = (sink, disk) := by
  simp [ofstream_insert, h]

/-- An insertion changes no file but the one the stream is open on. -/
theorem ofstream_insert_other (w : World) (sink : Sink) (data : String) (disk : Disk)
    (g : FileId) (h : sink.fd ≠ some g) : (ofstream_insert w sink data disk).2 g = disk g := by
  unfold ofstream_insert
  dsimp only
  split
  · split
    · rfl
    · rename_i f hf
      split
      · rfl
      · split
        · have hne : g ≠ f := by
            intro hgf
            exact h (by rw [hf, hgf])
          simp [Disk.set, hne]
        · rfl
  · rfl

/-- The stream an insertion leaves does not depend on the contents of the files. -/
theorem ofstream_insert_sink_indep (w : World) (sink : Sink) (data : String) (d1 d2 : Disk) :
    (ofstream_insert w sink data d1).1 = (ofstream_insert w sink data d2).1 := by
  unfold ofstream_insert
  dsimp only
  split
  · split
    · rfl
    · split
      · rfl
      · split <;> rfl
  · rfl

/-- Insertions into the same stream keep two disks in agreement on a file. -/
theorem ofstream_insert_agree (w : World) (sink : Sink) (data : String) (d1 d2 : Disk)
    (g : FileId) (h : d1 g = d2 g) :
    (ofstream_insert w sink data d1).2 g = (ofstream_insert w sink data d2).2 g := by
  unfold ofstream_insert
  dsimp only
  split
  · split
    · exact h
    · rename_i f hf
      split
      · exact h
      · split
        · by_cases hgf : g = f
          · subst hgf
            simp [Disk.set, h]
          · simp [Disk.set, hgf, h]
        · exact h
  · exact h

/-- The destructor of a stream changes no file but the one the stream is open on. -/
theorem ofstream_close_other (w : World) (sink : Sink) (disk : Disk) (g : FileId)
    (h : sink.fd ≠ some g) : ofstream_close w sink disk g = disk g := by
  unfold ofstream_close
  cases hf : sink.fd with
  | none => rfl
  | some f =>
    have hne : g ≠ f := by
      intro hgf
      exact h (by rw [hf, hgf])
    dsimp only
    split
    · rfl
    · split
      · simp [Disk.set, hne]
      · rfl

/-- The destructor of a stream keeps two disks in agreement on a file. -/
theorem ofstream_close_agree (w : World) (sink : Sink) (d1 d2 : Disk) (g : FileId)
    (h : d1 g = d2 g) : ofstream_close w sink d1 g = ofstream_close w sink d2 g := by
  unfold ofstream_close
  cases hf : sink.fd with
  | none => exact h
  | some f =>
    dsimp only
    split
    · exact h
    · split
      · by_cases hgf : g = f
        · subst hgf
          simp [Disk.set, h]
        · simp [Disk.set, hgf, h]
      · exact h

theorem foldl_close_other (w : World) (g : FileId) :
    ∀ (l : Outfiles) (disk : Disk), (∀ e, e ∈ l → e.2.fd ≠ some g) →
      (l.foldl (fun d e => ofstream_close w e.2 d) disk) g = disk g := by
  intro l
  induction l with
  | nil => intro disk _; rfl
  | cons e rest ih =>
    intro disk h
    rw [List.foldl_cons, ih _ (fun x hx => h x (List.mem_cons_of_mem _ hx)),
      ofstream_close_other w e.2 disk g (h e (List.mem_cons_self _ _))]

theorem foldl_close_agree (w : World) (g : FileId) :
    ∀ (l : Outfiles) (d1 d2 : Disk), d1 g = d2 g →
      (l.foldl (fun d e => ofstream_close w e.2 d) d1) g =
        (l.foldl (fun d e => ofstream_close w e.2 d) d2) g := by
  intro l
  induction l with
  | nil => intro d1 d2 h; exact h
  | cons e rest ih =>
    intro d1 d2 h
    rw [List.foldl_cons, List.foldl_cons]
    exact ih _ _ (ofstream_close_agree w e.2 d1 d2 g h)

theorem mem_destroy_order (w : World) (m : Outfiles) (e : String × Sink) :
    e ∈ (m.insertionSort fun a b => w.destroyed_before a.1 b.1 = true) ↔ e ∈ m :=
  (List.perm_insertionSort _ m).mem_iff

/-- The destructor of the map changes no file but those its streams are open on. -/
theorem destroy_streams_other (w : World) (m : Outfiles) (disk : Disk) (g : FileId)
    (h : ∀ e, e ∈ m → e.2.fd ≠ some g) : destroy_streams w m disk g = disk g :=
  foldl_close_other w g _ disk (fun e he => h e ((mem_destroy_order w m e).1 he))

/-- The destructor of the map keeps two disks in agreement on a file. -/
theorem destroy_streams_agree (w : World) (m : Outfiles) (d1 d2 : Disk) (g : FileId)
    (h : d1 g = d2 g) : destroy_streams w m d1 g = destroy_streams w m d2 g :=
  foldl_close_agree w g _ d1 d2 h

/-- When one stream alone is open on a file, the destructor of the map leaves in the file
what the destructor of that stream leaves. -/
theorem destroy_streams_unique (w : World) (m : Outfiles) (disk : Disk) (g : FileId)
    (k : String) (sink : Sink) (hnd : (m.map Prod.fst).Nodup) (hmem : (k, sink) ∈ m)
    (h : ∀ e, e ∈ m → e.1 ≠ k → e.2.fd ≠ some g) :
    destroy_streams w m disk g = ofstream_close w sink disk g := by
  unfold destroy_streams
  have hperm := List.perm_insertionSort (fun a b : String × Sink =>
    w.destroyed_before a.1 b.1 = true) m
  have hnd1 : ((m.insertionSort fun a b => w.destroyed_before a.1 b.1 = true).map
      Prod.fst).Nodup := (hperm.map Prod.fst).nodup_iff.2 hnd
  obtain ⟨l1, l2, hl⟩ := List.append_of_mem ((mem_destroy_order w m (k, sink)).2 hmem)
  rw [hl] at hnd1 ⊢
  have hother : ∀ e, e ∈ l1 ++ l2 → e.2.fd ≠ some g := by
    intro e he
    have hem : e ∈ m := by
      rw [← mem_destroy_order w m e, hl]
      rcases List.mem_append.1 he with h1 | h1
      · exact List.mem_append_left _ h1
      · exact List.mem_append_right _ (List.mem_cons_of_mem _ h1)
    apply h e hem
    intro hk
    simp only [List.map_append, List.map_cons] at hnd1
    have hnd2 := List.nodup_middle.1 hnd1
    rw [List.nodup_cons] at hnd2
    apply hnd2.1
    rw [← hk, ← List.map_append]
    exact List.mem_map_of_mem Prod.fst he
  rw [List.foldl_append, List.foldl_cons,
    foldl_close_other w g l2 _ (fun e he => hother e (List.mem_append_right _ he))]
  apply ofstream_close_agree
  exact foldl_close_other w g l1 _ (fun e he => hother e (List.mem_append_left _ he))

/-- Opening a path that resolves to `f` gives a good stream at offset 0 on the emptied
file `f`, with nothing buffered. -/
theorem ofstream_open_some (w : World) (path : String) (disk : Disk) (f : FileId)
    (h : w.open_for_write path = some f) :
    ofstream_open w path disk =
      ({ path := path, fd := some f, good := true, offset := 0, pending := "" },
        disk.set f "") := by
  simp [ofstream_open, h]

theorem ofstream_open_fd (w : World) (path : String) (disk : Disk) :
    (ofstream_open w path disk).1.fd = w.open_for_write path := by
  unfold ofstream_open
  split <;> simp [*]

/-- Opening changes no file but the one the path resolves to. -/
theorem ofstream_open_other (w : World) (path : String) (disk : Disk) (g : FileId)
    (h : w.open_for_write path ≠ some g) : (ofstream_open w path disk).2 g = disk g := by
  unfold ofstream_open
  split
  · rename_i f hf
    have hne : g ≠ f := by
      intro hgf
      exact h (by rw [hf, hgf])
    simp [Disk.set, hne]
  · rfl

theorem ensure_sink_of_some (w : World) (D : Option String) (s : State) (k : String)
    (sink : Sink) (h : map_find s.outfiles k = some sink) : ensure_sink w D s k = s := by
  simp [ensure_sink, h]

theorem ensure_sink_of_none (w : World) (D : Option String) (s : State) (k : String)
    (h : map_find s.outfiles k = none) :
    ensure_sink w D s k =
      { s with
        outfiles := map_assign s.outfiles k (ofstream_open w (sink_path D k) s.disk).1,
        disk := (ofstream_open w (sink_path D k) s.disk).2,
        trace := s.trace ++ [.opened k (sink_path D k)] } := by
  simp [ensure_sink, h]

theorem ensure_sink_find_ne (w : World) (D : Option String) (s : State) (k k1 : String)
    (hne : k1 ≠ k) : map_find (ensure_sink w D s k).outfiles k1 = map_find s.outfiles k1 := by
  cases h : map_find s.outfiles k with
  | none => rw [ensure_sink_of_none w D s k h]; exact map_find_assign_ne _ _ _ _ hne
  | some sink => rw [ensure_sink_of_some w D s k sink h]

/-- The sink the loop body writes to: the one found in the map, or the one just opened. -/
theorem ensure_sink_find_self (w : World) (D : Option String) (s : State) (k : String) :
    map_find (ensure_sink w D s k).outfiles k =
      some ((map_find s.outfiles k).getD (ofstream_open w (sink_path D k) s.disk).1) := by
  cases h : map_find s.outfiles k with
  | none => rw [ensure_sink_of_none w D s k h]; simp [map_find_assign_self]
  | some sink => rw [ensure_sink_of_some w D s k sink h]; simp [h]

theorem write_record_find_self (w : World) (fs : Nat) (s : State) (n : Nat) (k : String)
    (j : Json) (sink : Sink) :
    map_find (write_record w fs s n k j sink).outfiles k =
      some (ofstream_insert w (ofstream_insert w sink (w.dump j) s.disk).1 "\n"
        (ofstream_insert w sink (w.dump j) s.disk).2).1 := by
  simp [write_record, map_find_assign_self]

theorem write_record_find_ne (w : World) (fs : Nat) (s : State) (n : Nat) (k k1 : String)
    (j : Json) (sink : Sink) (hne : k1 ≠ k) :
    map_find (write_record w fs s n k j sink).outfiles k1 = map_find s.outfiles k1 := by
  simp [write_record, map_find_assign_ne _ _ _ _ hne]

theorem step_find_ne (w : World) (D : Option String) (fs : Nat) (s : State) (n : Nat)
    (k k1 : String) (j : Json) (sink : Sink) (hne : k1 ≠ k) :
    map_find (write_record w fs (ensure_sink w D s k) n k j sink).outfiles k1 =
      map_find s.outfiles k1 := by
  rw [write_record_find_ne _ _ _ _ _ _ _ _ hne, ensure_sink_find_ne _ _ _ _ _ hne]

/-- A property of the sinks that opening establishes and insertion preserves holds of
every sink of the map whenever the loop is left. -/
theorem main_loop_sinks (w : World) (D : Option String) (fs : Nat) (Q : String → Sink → Prop)
    (hopen : ∀ k disk, Q k (ofstream_open w (sink_path D k) disk).1)
    (hins : ∀ k sink data disk, Q k sink → Q k (ofstream_insert w sink data disk).1)
    (lines : List String) (s : State)
    (h0 : ∀ k sink, map_find s.outfiles k = some sink → Q k sink) :
    ∀ k sink, map_find (main_loop w D fs lines s).1.outfiles k = some sink → Q k sink := by
  have key := main_loop_invariant w D fs
    (fun _ s => ∀ k sink, map_find s.outfiles k = some sink → Q k sink)
    ?_ lines [] s (by simp [valid_lines]) h0
  · exact key
  · intro ls s line k j sink hP _ _ hs k1 sink1 h1
    by_cases hk : k1 = k
    · subst hk
      rw [write_record_find_self] at h1
      rw [ensure_sink_find_self] at hs
      have hQ : Q k1 sink := by
        cases hf : map_find s.outfiles k1 with
        | none =>
          rw [hf] at hs
          simp only [Option.getD_none, Option.some.injEq] at hs
          rw [← hs]
          exact hopen _ _
        | some sink0 =>
          rw [hf] at hs
          simp only [Option.getD_some, Option.some.injEq] at hs
          rw [← hs]
          exact hP _ _ hf
      simp only [Option.some.injEq] at h1
      rw [← h1]
      exact hins _ _ _ _ (hins _ _ _ _ hQ)
    · rw [step_find_ne _ _ _ _ _ _ _ _ _ hk] at h1
      exact hP _ _ h1

theorem map_find_of_mem (m : Outfiles) (hnd : (m.map Prod.fst).Nodup) (k : String)
    (v : Sink) (h : (k, v) ∈ m) : map_find m k = some v := by
  induction m with
  | nil => simp at h
  | cons e rest ih =>
    rcases e with ⟨a, b⟩
    simp only [List.map_cons, List.nodup_cons] at hnd
    simp only [List.mem_cons] at h
    rcases h with h | h
    · cases h
      simp [map_find, List.lookup]
    · have hne : k ≠ a := by
        intro hk
        apply hnd.1
        rw [← hk]
        exact List.mem_map_of_mem Prod.fst h
      have hb : (k == a) = false := by simpa using hne
      simp only [map_find, List.lookup, hb]
      exact ih hnd.2 h

/-- Every sink of the map is open on the file its path resolves to, or on none when the
open failed. -/
theorem main_loop_sink_fd (w : World) (D : Option String) (fs : Nat) (lines : List String)
    (disk : Disk) (K : String) (sink : Sink)
    (h : map_find (main_loop w D fs lines (State.fresh disk)).1.outfiles K = some sink) :
    sink.fd = w.open_for_write (sink_path D K) :=
  main_loop_sinks w D fs
    (fun K sink => sink.fd = w.open_for_write (sink_path D K))
    (fun _ d => ofstream_open_fd w _ d)
    (fun _ sink data d h => (ofstream_insert_fd w sink data d).trans h)
    lines (State.fresh disk)
    (fun k sink h => by simp [State.fresh, map_find] at h) K sink h

theorem mem_of_map_find (m : Outfiles) (k : String) (v : Sink)
    (h : map_find m k = some v) : (k, v) ∈ m := by
  induction m with
  | nil => simp [map_find, List.lookup] at h
  | cons e rest ih =>
    rcases e with ⟨a, b⟩
    simp only [map_find, List.lookup] at h ih
    cases hk : k == a with
    | true =>
      rw [hk] at h
      have hka : k = a := by simpa using hk
      simp only [Option.some.injEq] at h
      rw [hka, h]
      exact List.mem_cons_self _ _
    | false =>
      rw [hk] at h
      exact List.mem_cons_of_mem _ (ih h)

/-- A loop that has thrown is not affected by further lines. -/
theorem main_loop_prefix_abort (w : World) (D : Option String) (fs : Nat) :
    ∀ pre post s, ¬ valid_lines w pre →
      main_loop w D fs (pre ++ post) s = main_loop w D fs pre s := by
  intro pre
  induction pre with
  | nil => intro post s h; exact absurd (by simp [valid_lines]) h
  | cons line rest ih =>
    intro post s h
    cases hd : decode_line w line with
    | error e => simp [main_loop, loop_body, hd]
    | ok r =>
      rcases r with ⟨k, j⟩
      obtain ⟨sink, _, hdel⟩ := deliver_spec w D fs s line.length k j
      have hrest : ¬ valid_lines w rest := by
        intro hv
        exact h ((valid_lines_cons w line rest).2 ⟨by simp [decodes, hd], hv⟩)
      simpa [main_loop, loop_body, hd, hdel] using ih post _ hrest

/-- A sink of the map stays in the map, on the same path and the same file, to the end
of the loop. -/
theorem main_loop_sink_persists (w : World) (D : Option String) (fs : Nat)
    (lines : List String) (s : State) (K : String) (sink : Sink)
    (h : map_find s.outfiles K = some sink) :
    ∃ sink1, map_find (main_loop w D fs lines s).1.outfiles K = some sink1 ∧
      sink1.path = sink.path ∧ sink1.fd = sink.fd := by
  have key := main_loop_invariant w D fs
    (fun _ s1 => ∃ sink1, map_find s1.outfiles K = some sink1 ∧
      sink1.path = sink.path ∧ sink1.fd = sink.fd)
    ?_ lines [] s (by simp [valid_lines]) ⟨sink, h, rfl, rfl⟩
  · exact key
  · intro ls s1 line k j sink2 ⟨sink1, hf, hp, hfd⟩ _ _ hs
    by_cases hk : K = k
    · subst hk
      rw [ensure_sink_find_self, hf] at hs
      simp only [Option.getD_some, Option.some.injEq] at hs
      subst hs
      refine ⟨_, write_record_find_self _ _ _ _ _ _ _, ?_, ?_⟩
      · rw [ofstream_insert_path, ofstream_insert_path, hp]
      · rw [ofstream_insert_fd, ofstream_insert_fd, hfd]
    · exact ⟨sink1, by rw [step_find_ne _ _ _ _ _ _ _ _ _ hk]; exact hf, hp, hfd⟩

theorem opens_of_filter (K : String) (trace : List Event) :
    opens_of K (trace.filter (about_sink K)) = opens_of K trace := by
  unfold opens_of
  rw [List.countP_filter]
  congr 1
  funext e
  cases e <;> simp [about_sink]

theorem opens_of_wrote (K : String) (texts : List String) :
    opens_of K (texts.map (.wrote K)) = 0 := by
  unfold opens_of
  simp [List.countP_eq_zero]

/-! ## The sink map -/

/-- C4: at every point of a run (after the lines `pre`, whatever follows) the map has at
most one sink per routing key; the events about the sink of a key are one opening, at the
first record with that key, followed by the writes of the records with that key, so the
sink is opened exactly once; a record whose key has a sink is written to that sink by
the two insertions alone, without another open; and every sink of the map is still in
the map, on the same path and the same file, when the loop is left. -/
theorem one_sink_per_key (w : World) (D : Option String) (fs : Nat) (pre post : List String)
    (disk : Disk) :
    ((main_loop w D fs pre (State.fresh disk)).1.outfiles.map Prod.fst).Nodup ∧
    (∀ K, (main_loop w D fs pre (State.fresh disk)).1.trace.filter (about_sink K) =
      if K ∈ keys_of w pre then
        .opened K (sink_path D K) :: (texts_for w K (routed w pre)).map (.wrote K)
      else []) ∧
    (∀ K, opens_of K (main_loop w D fs pre (State.fresh disk)).1.trace =
      if K ∈ keys_of w pre then 1 else 0) ∧
    (∀ line K j sink, decode_line w line = .ok (K, j) →
      map_find (main_loop w D fs pre (State.fresh disk)).1.outfiles K = some sink →
      loop_body w D fs (main_loop w D fs pre (State.fresh disk)).1 line =
        .ok (write_record w fs (main_loop w D fs pre (State.fresh disk)).1
          line.length K j sink)) ∧
    (∀ K sink, map_find (main_loop w D fs pre (State.fresh disk)).1.outfiles K = some sink →
      ∃ sink1, map_find (main_loop w D fs (pre ++ post) (State.fresh disk)).1.outfiles K
          = some sink1 ∧ sink1.path = sink.path ∧ sink1.fd = sink.fd) := by
  obtain ⟨hnd, _, hfil, _⟩ := main_loop_events w D fs pre disk
  refine ⟨hnd, hfil, ?_, ?_, ?_⟩
  · intro K
    rw [← opens_of_filter, hfil K]
    split
    · have h := opens_of_wrote K (texts_for w K (routed w pre))
      unfold opens_of at h ⊢
      rw [List.countP_cons, h]
      simp
    · rfl
  · intro line K j sink hd hf
    simp [loop_body, hd, deliver, ensure_sink_of_some w D _ K sink hf, hf]
  · intro K sink hf
    by_cases hv : valid_lines w pre
    · rw [main_loop_append w D fs pre post _ hv]
      exact main_loop_sink_persists w D fs post _ K sink hf
    · rw [main_loop_prefix_abort w D fs pre post _ hv]
      exact ⟨sink, hf, rfl, rfl⟩

/-! ## Where a sink is opened -/

/-- C7, refuted as stated: for the key `/abs` the sink is opened at `/abs.json`, which is
neither the text `D//abs.json` nor a path below `D`, with the default directory `.` as
with the directory `out`; the run on a record with that key opens `/abs.json`. -/
theorem sink_path_absolute_key_counterexample :
    sink_path none "/abs" = "/abs.json" ∧
    sink_path none "/abs" ≠ "." ++ "/" ++ "/abs" ++ ".json" ∧
    ¬ ("./".toList <+: (sink_path none "/abs").toList) ∧
    sink_path (some "out") "/abs" = "/abs.json" ∧
    sink_path (some "out") "/abs" ≠ "out" ++ "/" ++ "/abs" ++ ".json" ∧
    ¬ ("out/".toList <+: (sink_path (some "out") "/abs").toList) ∧
    (run (demo input_absolute) none input_absolute empty_disk).1.trace.head? =
      some (.opened "/abs" "/abs.json") := by
  decide

/-- C7 (amended): the sink of every key `K` in the map was opened with the path
`sink_path D K`, on the file that path resolves to.  For a key that does not begin with
the separator that path is `dir/K.json`, or `dir` followed directly by `K.json` when `dir`
is empty or ends in a separator, `dir` being the output directory or `.` when none was
given; for a key that begins with the separator it is `K.json`, whatever the directory. -/
theorem sink_opened_at_joined_path (w : World) (D : Option String) (fs : Nat)
    (lines : List String) (disk : Disk) :
    (∀ K sink, map_find (main_loop w D fs lines (State.fresh disk)).1.outfiles K = some sink →
      sink.path = sink_path D K ∧ sink.fd = w.open_for_write (sink_path D K)) ∧
    (∀ K, first_char K ≠ '/' →
      sink_path D K =
        if D.getD "." ≠ "" ∧ (D.getD ".").toList.getLast? ≠ some '/' then
          D.getD "." ++ "/" ++ K ++ ".json"
        else D.getD "." ++ K ++ ".json") ∧
    (∀ K, first_char K ≠ '/' → sink_path none K = "./" ++ K ++ ".json") ∧
    (∀ K, first_char K = '/' → sink_path D K = K ++ ".json") := by
  refine ⟨?_, ?_, ?_, ?_⟩
  · apply main_loop_sinks w D fs
      (fun K sink => sink.path = sink_path D K ∧ sink.fd = w.open_for_write (sink_path D K))
    · intro k d
      unfold ofstream_open
      split <;> simp [*]
    · intro k sink data d h
      rw [ofstream_insert_path, ofstream_insert_fd]
      exact h
    · intro k sink h
      simp [State.fresh, map_find] at h
  · intro K hK
    have h1 : ¬ first_char (K ++ ".json") = '/' := fun h => hK ((first_char_append_json K).1 h)
    simp only [sink_path, path_join, h1, if_false]
    split <;> simp [String.append_assoc]
  · intro K hK
    have h1 : ¬ first_char (K ++ ".json") = '/' := fun h => hK ((first_char_append_json K).1 h)
    have h2 : ("." : String) ≠ "" ∧ (".": String).toList.getLast? ≠ some '/' := by decide
    simp only [sink_path, path_join, h1, if_false, Option.getD_none, h2]
    simp [String.append_assoc]
  · intro K hK
    have h1 : first_char (K ++ ".json") = '/' := (first_char_append_json K).2 hK
    simp only [sink_path, path_join, h1, if_true]

/-! ## The help option -/

/-- C10, evaluated on failing inputs: with `-h` (or `--help`) before the file name
`Args::parse` ends with `command = EXECUTE` and `main` processes the file without
printing the usage text; with `-h` as the last argument `Args::parse` reads the null
pointer `argv[argc]`. -/
theorem parse_help_then_file_executes (fuel : Nat) :
    Args.parse (fuel + 1) ["jsplit", "-h", "in.json"] =
      .ok { filename := "in.json", program_name := "jsplit", command := .EXECUTE } ∧
    Args.parse (fuel + 1) ["jsplit", "--help", "in.json"] =
      .ok { filename := "in.json", program_name := "jsplit", command := .EXECUTE } ∧
    main (demo input_three) (fuel + 1) ["jsplit", "-h", "in.json"] empty_disk =
      .ok (run (demo input_three) none input_three empty_disk) ∧
    (run (demo input_three) none input_three empty_disk).1.trace.any Event.is_help = false ∧
    exit_status (run (demo input_three) none input_three empty_disk).2 = 0 ∧
    Args.parse (fuel + 1) ["jsplit", "-h"] = .fault ∧
    Args.parse (fuel + 1) ["jsplit", "--help"] = .fault := by
  have h1 : Args.parse (fuel + 1) ["jsplit", "-h", "in.json"] =
      .ok { filename := "in.json", program_name := "jsplit", command := .EXECUTE } := by
    simp [Args.parse, Args.parse_options, Args.parse_option, split, split_loop, Res.bind]
    decide
  have h2 : Args.parse (fuel + 1) ["jsplit", "--help", "in.json"] =
      .ok { filename := "in.json", program_name := "jsplit", command := .EXECUTE } := by
    simp [Args.parse, Args.parse_options, Args.parse_option, split, split_loop, Res.bind]
    decide
  have h3 : Args.parse (fuel + 1) ["jsplit", "-h"] = .fault := by
    simp [Args.parse, Args.parse_options, Args.parse_option, split, split_loop, Res.bind]
    decide
  have h4 : Args.parse (fuel + 1) ["jsplit", "--help"] = .fault := by
    simp [Args.parse, Args.parse_options, Args.parse_option, split, split_loop, Res.bind]
    decide
  refine ⟨h1, h2, ?_, by decide, by decide, h3, h4⟩
  simp [main, h1, Res.bind, demo]

/-! ## The contents of the file of a key -/

theorem join_append_single (l : List String) (a : String) :
    String.join (l ++ [a]) = String.join l ++ a := by
  simp [String.join, List.foldl_append]

theorem pwrite_at_end (c data : String) : pwrite c c.length data = c ++ data := by
  rcases c with ⟨cs⟩
  rcases data with ⟨ds⟩
  apply String.ext
  show cs.take cs.length ++ List.replicate (cs.length - cs.length) (Char.ofNat 0) ++ ds
    ++ cs.drop (cs.length + ds.length) = cs ++ ds
  rw [List.take_length, Nat.sub_self, List.replicate_zero, List.append_nil,
    List.drop_eq_nil_of_le (Nat.le_add_right _ _), List.append_nil]

/-- A successful insertion into a stream at the end of its file: what the file holds
followed by what the stream buffers grows by the bytes inserted. -/
theorem ofstream_insert_append (w : World) (sink : Sink) (data : String) (disk : Disk)
    (f : FileId) (c : String) (hfd : sink.fd = some f) (hgood : sink.good = true)
    (hw : ∀ off text, w.write_ok f off text = true) (hc : disk f = some c)
    (hoff : sink.offset = c.length) :
    ∃ c1, (ofstream_insert w sink data disk).1.fd = some f ∧
      (ofstream_insert w sink data disk).1.good = true ∧
      (ofstream_insert w sink data disk).2 f = some c1 ∧
      (ofstream_insert w sink data disk).1.offset = c1.length ∧
      c1 ++ (ofstream_insert w sink data disk).1.pending = c ++ sink.pending ++ data := by
  by_cases hout : String.mk ((sink.pending ++ data).toList.take (w.flushed sink.pending data))
      = ""
  · have heq : ofstream_insert w sink data disk =
        ({ sink with pending := sink.pending ++ data }, disk) := by
      unfold ofstream_insert
      simp only [hgood, if_true, hfd, hout]
    rw [heq]
    exact ⟨c, hfd, hgood, hc, hoff, by rw [String.append_assoc]⟩
  · have heq : ofstream_insert w sink data disk =
        ({ sink with
            offset := sink.offset + (String.mk ((sink.pending ++ data).toList.take
              (w.flushed sink.pending data))).length,
            pending := String.mk ((sink.pending ++ data).toList.drop
              (w.flushed sink.pending data)) },
          disk.set f (pwrite ((disk f).getD "") sink.offset
            (String.mk ((sink.pending ++ data).toList.take
              (w.flushed sink.pending data))))) := by
      unfold ofstream_insert
      simp only [hgood, if_true, hfd, hout, if_false, hw]
    rw [heq]
    refine ⟨c ++ String.mk ((sink.pending ++ data).toList.take (w.flushed sink.pending data)),
      hfd, hgood, ?_, ?_, ?_⟩
    · simp only [Disk.set, if_true, hc, Option.getD_some, hoff, pwrite_at_end]
    · simp only [hoff, String.length_append]
    · rw [String.append_assoc, take_append_drop_string, String.append_assoc]

/-- The loop body changes no file but the one of the sink it writes to. -/
theorem step_disk_other (w : World) (D : Option String) (fs : Nat) (s : State) (n : Nat)
    (k : String) (j : Json) (sink : Sink) (g : FileId)
    (hs : map_find (ensure_sink w D s k).outfiles k = some sink) (hfd : sink.fd ≠ some g) :
    (write_record w fs (ensure_sink w D s k) n k j sink).disk g = s.disk g := by
  have h1 : (ensure_sink w D s k).disk g = s.disk g := by
    cases hf : map_find s.outfiles k with
    | some sink0 => rw [ensure_sink_of_some w D s k sink0 hf]
    | none =>
      rw [ensure_sink_find_self, hf] at hs
      simp only [Option.getD_none, Option.some.injEq] at hs
      rw [ensure_sink_of_none w D s k hf]
      apply ofstream_open_other
      rw [← ofstream_open_fd w _ s.disk, hs]
      exact hfd
  simp only [write_record]
  rw [ofstream_insert_other _ _ _ _ _ (by rw [ofstream_insert_fd]; exact hfd),
    ofstream_insert_other _ _ _ _ _ hfd, h1]

/-- The file of a key that shares it with no other key of the input holds, whenever the
loop is left, a first part of the texts written for that key, and the stream of the key
buffers the rest, provided the open and the writes succeed. -/
theorem main_loop_file_content (w : World) (D : Option String) (fs : Nat)
    (lines : List String) (disk : Disk) (K : String) (f : FileId)
    (hopen : w.open_for_write (sink_path D K) = some f)
    (hw : ∀ off text, w.write_ok f off text = true)
    (halias : ∀ k, k ∈ keys_of w lines → k ≠ K → w.open_for_write (sink_path D k) ≠ some f)
    (hK : K ∈ keys_of w lines) :
    ∃ sink c, map_find (main_loop w D fs lines (State.fresh disk)).1.outfiles K = some sink ∧
      sink.fd = some f ∧
      (main_loop w D fs lines (State.fresh disk)).1.disk f = some c ∧
      sink.offset = c.length ∧
      c ++ sink.pending = String.join (texts_for w K (routed w lines)) := by
  have key := main_loop_invariant w D fs
    (fun ls s =>
      (∀ k, k ∈ keys_of w ls → k ≠ K → w.open_for_write (sink_path D k) ≠ some f) →
      (∀ k sink, map_find s.outfiles k = some sink →
        sink.fd = w.open_for_write (sink_path D k)) ∧
      (map_find s.outfiles K = none → K ∉ keys_of w ls) ∧
      (∀ sink, map_find s.outfiles K = some sink →
        sink.good = true ∧
        ∃ c, s.disk f = some c ∧ sink.offset = c.length ∧
          c ++ sink.pending = String.join (texts_for w K (routed w ls))))
    ?_ lines [] (State.fresh disk) (by simp [valid_lines]) ?_
  · simp only [List.nil_append] at key
    have hka : keys_of w (accepted w lines) = keys_of w lines := by
      simp [keys_of, routed_accepted]
    rw [hka, routed_accepted] at key
    obtain ⟨hfds, hnone, hsome⟩ := key halias
    cases hf : map_find (main_loop w D fs lines (State.fresh disk)).1.outfiles K with
    | none => exact absurd hK (hnone hf)
    | some sink =>
      obtain ⟨_, c, hc, hoff, hcat⟩ := hsome sink hf
      exact ⟨sink, c, rfl, by rw [hfds K sink hf, hopen], hc, hoff, hcat⟩
  · intro ls s line k j sink hP hv hd hs hal
    have hr : routed w (ls ++ [line]) = routed w ls ++ [(k, j)] := by
      rw [routed_append w ls [line] hv, routed_single w line k j hd]
    have hk : keys_of w (ls ++ [line]) = keys_of w ls ++ [k] := by
      simp [keys_of, hr]
    have hal0 : ∀ k, k ∈ keys_of w ls → k ≠ K → w.open_for_write (sink_path D k) ≠ some f := by
      intro k0 hk0
      exact hal k0 (by rw [hk]; exact List.mem_append_left _ hk0)
    obtain ⟨hfds, hnone, hsome⟩ := hP hal0
    have hsink_fd : sink.fd = w.open_for_write (sink_path D k) := by
      rw [ensure_sink_find_self] at hs
      cases hf : map_find s.outfiles k with
      | none =>
        rw [hf] at hs
        simp only [Option.getD_none, Option.some.injEq] at hs
        rw [← hs, ofstream_open_fd]
      | some sink0 =>
        rw [hf] at hs
        simp only [Option.getD_some, Option.some.injEq] at hs
        rw [← hs]
        exact hfds k sink0 hf
    refine ⟨?_, ?_, ?_⟩
    · intro k1 sink1 h1
      by_cases hk1 : k1 = k
      · subst hk1
        rw [write_record_find_self] at h1
        simp only [Option.some.injEq] at h1
        rw [← h1, ofstream_insert_fd, ofstream_insert_fd]
        exact hsink_fd
      · rw [step_find_ne _ _ _ _ _ _ _ _ _ hk1] at h1
        exact hfds k1 sink1 h1
    · intro hf
      by_cases hKk : K = k
      · subst hKk
        rw [write_record_find_self] at hf
        simp at hf
      · rw [step_find_ne _ _ _ _ _ _ _ _ _ hKk] at hf
        rw [hk, List.mem_append, List.mem_singleton]
        rintro (h | h)
        · exact hnone hf h
        · exact hKk h
    · intro sink1 h1
      rw [hr, texts_for_append]
      by_cases hKk : k = K
      · subst hKk
        simp only [if_true, join_append_single]
        rw [write_record_find_self] at h1
        simp only [Option.some.injEq] at h1
        have hbase : sink.good = true ∧
            ∃ c, (ensure_sink w D s k).disk f = some c ∧ sink.offset = c.length ∧
              c ++ sink.pending = String.join (texts_for w k (routed w ls)) := by
          cases hf : map_find s.outfiles k with
          | some sink0 =>
            rw [ensure_sink_find_self, hf] at hs
            simp only [Option.getD_some, Option.some.injEq] at hs
            rw [ensure_sink_of_some w D s k sink0 hf, ← hs]
            exact hsome sink0 hf
          | none =>
            rw [ensure_sink_find_self, hf] at hs
            simp only [Option.getD_none, Option.some.injEq] at hs
            have ht := texts_for_of_not_mem w k (routed w ls) (hnone hf)
            rw [ensure_sink_of_none w D s k hf, ← hs, ofstream_open_some w _ _ f hopen, ht]
            exact ⟨rfl, "", by simp [Disk.set], rfl, rfl⟩
        have hfd : sink.fd = some f := by rw [hsink_fd, hopen]
        obtain ⟨hgood, c, hc, hoff, hcat⟩ := hbase
        obtain ⟨c1, a1, a2, a3, a4, a5⟩ := ofstream_insert_append w sink (w.dump j)
          (ensure_sink w D s k).disk f c hfd hgood hw hc hoff
        obtain ⟨c2, b1, b2, b3, b4, b5⟩ := ofstream_insert_append w _ "\n" _ f c1 a1 a2 hw a3 a4
        rw [← h1]
        refine ⟨b2, c2, ?_, b4, ?_⟩
        · simp only [write_record]
          exact b3
        · rw [b5, a5, hcat, String.append_assoc]
      · have hKk1 : K ≠ k := fun h => hKk h.symm
        rw [step_find_ne _ _ _ _ _ _ _ _ _ hKk1] at h1
        simp only [hKk, if_false, List.append_nil]
        obtain ⟨c1, c, hc, hoff, hcat⟩ := hsome sink1 h1
        refine ⟨c1, c, ?_, hoff, hcat⟩
        rw [step_disk_other w D fs s _ k j sink f hs, hc]
        rw [hsink_fd]
        exact hal k (by rw [hk]; simp) hKk
  · intro _
    refine ⟨?_, ?_, ?_⟩
    · intro k sink h; simp [State.fresh, map_find] at h
    · intro _; simp [keys_of, routed]
    · intro sink h; simp [State.fresh, map_find] at h

/-- After a run whose lines all decode, the file of a key that shares it with no other
key of the input holds the texts written for that key, provided the open and the writes
succeed: the destructor of the stream writes what the stream still buffers. -/
theorem run_file_content (w : World) (D : Option String) (input : String) (disk : Disk)
    (K : String) (f : FileId) (hvalid : valid_lines w (read_lines input))
    (hopen : w.open_for_write (sink_path D K) = some f)
    (hw : ∀ off text, w.write_ok f off text = true)
    (halias : ∀ k, k ∈ keys_of w (read_lines input) → k ≠ K →
      w.open_for_write (sink_path D k) ≠ some f)
    (hK : K ∈ keys_of w (read_lines input)) :
    (run w D input disk).1.disk f =
      some (String.join (texts_for w K (routed w (read_lines input)))) := by
  obtain ⟨sink, c, hfind, hfd, hc, hoff, hcat⟩ :=
    main_loop_file_content w D (input.length % SIZE_RANGE) (read_lines input) disk K f
      hopen hw halias hK
  obtain ⟨hnd, hmem, _, _⟩ :=
    main_loop_events w D (input.length % SIZE_RANGE) (read_lines input) disk
  have hret := main_loop_returns w D (input.length % SIZE_RANGE) (read_lines input)
    (State.fresh disk) hvalid
  unfold run
  rw [finish_returned w _ 0 hret,
    destroy_streams_unique w _ _ f K sink hnd (mem_of_map_find _ K sink hfind)]
  · unfold ofstream_close
    simp only [hfd]
    by_cases hp : sink.pending = ""
    · rw [hp, String.append_empty] at hcat
      simp only [hp, if_true, hc, hcat]
    · simp only [hp, if_false, hw, if_true, Disk.set, hc, Option.getD_some, hoff,
        pwrite_at_end, hcat]
  · intro e he hne
    rw [main_loop_sink_fd w D _ _ disk e.1 e.2 (map_find_of_mem _ hnd e.1 e.2 he)]
    exact halias e.1 ((hmem e.1).1 (List.mem_map_of_mem Prod.fst he)) hne

/-! ## Runs from two disks -/

theorem ofstream_open_sink_indep (w : World) (path : String) (d1 d2 : Disk) :
    (ofstream_open w path d1).1 = (ofstream_open w path d2).1 := by
  unfold ofstream_open
  split <;> rfl

theorem ofstream_open_agree (w : World) (path : String) (d1 d2 : Disk) (g : FileId)
    (h : d1 g = d2 g ∨ w.open_for_write path = some g) :
    (ofstream_open w path d1).2 g = (ofstream_open w path d2).2 g := by
  unfold ofstream_open
  split
  · rename_i f hf
    by_cases hgf : g = f
    · simp [Disk.set, hgf]
    · rcases h with h | h
      · simp [Disk.set, hgf, h]
      · rw [hf] at h
        exact absurd (Option.some.inj h).symm hgf
  · rcases h with h | h
    · exact h
    · rename_i hn
      rw [hn] at h
      exact absurd h (by simp)

theorem ensure_sink_outfiles_indep (w : World) (D : Option String) (s1 s2 : State)
    (k : String) (h : s1.outfiles = s2.outfiles) :
    (ensure_sink w D s1 k).outfiles = (ensure_sink w D s2 k).outfiles := by
  cases hf : map_find s1.outfiles k with
  | none =>
    rw [ensure_sink_of_none w D s1 k hf, ensure_sink_of_none w D s2 k (by rw [← h]; exact hf)]
    simp only
    rw [h, ofstream_open_sink_indep w _ s1.disk s2.disk]
  | some sink =>
    rw [ensure_sink_of_some w D s1 k sink hf,
      ensure_sink_of_some w D s2 k sink (by rw [← h]; exact hf)]
    exact h

/-- The files a map of sinks is open on after the loop body: those of before and the one
of the sink written to. -/
theorem step_opened_on (w : World) (D : Option String) (fs : Nat) (s : State) (n : Nat)
    (k : String) (j : Json) (sink : Sink) (g : FileId)
    (hs : map_find (ensure_sink w D s k).outfiles k = some sink) :
    opened_on (write_record w fs (ensure_sink w D s k) n k j sink).outfiles g ↔
      opened_on s.outfiles g ∨ sink.fd = some g := by
  constructor
  · rintro ⟨k1, sink1, hf, hfd⟩
    by_cases hk : k1 = k
    · subst hk
      rw [write_record_find_self] at hf
      simp only [Option.some.injEq] at hf
      rw [← hf, ofstream_insert_fd, ofstream_insert_fd] at hfd
      exact Or.inr hfd
    · rw [step_find_ne _ _ _ _ _ _ _ _ _ hk] at hf
      exact Or.inl ⟨k1, sink1, hf, hfd⟩
  · rintro (⟨k1, sink1, hf, hfd⟩ | hfd)
    · by_cases hk : k1 = k
      · subst hk
        rw [ensure_sink_find_self, hf] at hs
        simp only [Option.getD_some, Option.some.injEq] at hs
        refine ⟨k1, _, write_record_find_self _ _ _ _ _ _ _, ?_⟩
        rw [ofstream_insert_fd, ofstream_insert_fd, ← hs]
        exact hfd
      · exact ⟨k1, sink1, by rw [step_find_ne _ _ _ _ _ _ _ _ _ hk]; exact hf, hfd⟩
    · refine ⟨k, _, write_record_find_self _ _ _ _ _ _ _, ?_⟩
      rw [ofstream_insert_fd, ofstream_insert_fd]
      exact hfd

/-- The loop body keeps two states in the relation `same_outcome`. -/
theorem step_same_outcome (w : World) (D : Option String) (fs : Nat) (d1 d2 : Disk)
    (s1 s2 : State) (n : Nat) (k : String) (j : Json) (sink1 sink2 : Sink)
    (hR : same_outcome d1 d2 s1 s2)
    (hs1 : map_find (ensure_sink w D s1 k).outfiles k = some sink1)
    (hs2 : map_find (ensure_sink w D s2 k).outfiles k = some sink2) :
    same_outcome d1 d2 (write_record w fs (ensure_sink w D s1 k) n k j sink1)
      (write_record w fs (ensure_sink w D s2 k) n k j sink2) := by
  obtain ⟨hout, hagree, hrest⟩ := hR
  have hens := ensure_sink_outfiles_indep w D s1 s2 k hout
  have hsink : sink1 = sink2 := by
    rw [hens, hs2] at hs1
    exact (Option.some.inj hs1).symm
  subst hsink
  have hr1 : (ofstream_insert w sink1 (w.dump j) (ensure_sink w D s1 k).disk).1 =
      (ofstream_insert w sink1 (w.dump j) (ensure_sink w D s2 k).disk).1 :=
    ofstream_insert_sink_indep _ _ _ _ _
  refine ⟨?_, ?_, ?_⟩
  · simp only [write_record]
    rw [hens, hr1, ofstream_insert_sink_indep w _ "\n" _
      (ofstream_insert w sink1 (w.dump j) (ensure_sink w D s2 k).disk).2]
  · intro g hg
    rw [step_opened_on w D fs s1 n k j sink1 g hs1] at hg
    have hbase : (ensure_sink w D s1 k).disk g = (ensure_sink w D s2 k).disk g := by
      cases hf : map_find s1.outfiles k with
      | some sink0 =>
        rw [ensure_sink_of_some w D s1 k sink0 hf,
          ensure_sink_of_some w D s2 k sink0 (by rw [← hout]; exact hf)]
        rcases hg with hg | hg
        · exact hagree g hg
        · rw [ensure_sink_find_self, hf] at hs1
          simp only [Option.getD_some, Option.some.injEq] at hs1
          exact hagree g ⟨k, sink0, hf, by rw [hs1]; exact hg⟩
      | none =>
        rw [ensure_sink_of_none w D s1 k hf,
          ensure_sink_of_none w D s2 k (by rw [← hout]; exact hf)]
        apply ofstream_open_agree
        rcases hg with hg | hg
        · exact Or.inl (hagree g hg)
        · rw [ensure_sink_find_self, hf] at hs1
          simp only [Option.getD_none, Option.some.injEq] at hs1
          right
          rw [← ofstream_open_fd w _ s1.disk, hs1]
          exact hg
    simp only [write_record]
    rw [hr1]
    exact ofstream_insert_agree _ _ _ _ _ _ (ofstream_insert_agree _ _ _ _ _ _ hbase)
  · intro g hg
    rw [step_opened_on w D fs s1 n k j sink1 g hs1] at hg
    have hg1 : ¬ opened_on s1.outfiles g := fun h => hg (Or.inl h)
    have hg2 : sink1.fd ≠ some g := fun h => hg (Or.inr h)
    rw [step_disk_other w D fs s1 n k j sink1 g hs1 hg2,
      step_disk_other w D fs s2 n k j sink1 g hs2 hg2]
    exact hrest g hg1

/-- The loop keeps two states in the relation `same_outcome` and ends the same way. -/
theorem main_loop_same_outcome (w : World) (D : Option String) (fs : Nat) (d1 d2 : Disk) :
    ∀ lines s1 s2, same_outcome d1 d2 s1 s2 →
      same_outcome d1 d2 (main_loop w D fs lines s1).1 (main_loop w D fs lines s2).1 ∧
      (main_loop w D fs lines s1).2 = (main_loop w D fs lines s2).2 := by
  intro lines
  induction lines with
  | nil => intro s1 s2 h; exact ⟨h, rfl⟩
  | cons line rest ih =>
    intro s1 s2 h
    cases hd : decode_line w line with
    | error e => simpa [main_loop, loop_body, hd] using h
    | ok r =>
      rcases r with ⟨k, j⟩
      obtain ⟨sink1, hs1, hdel1⟩ := deliver_spec w D fs s1 line.length k j
      obtain ⟨sink2, hs2, hdel2⟩ := deliver_spec w D fs s2 line.length k j
      have h1 := step_same_outcome w D fs d1 d2 s1 s2 line.length k j sink1 sink2 h hs1 hs2
      simpa [main_loop, loop_body, hd, hdel1, hdel2] using ih _ _ h1

theorem same_outcome_fresh (d1 d2 : Disk) :
    same_outcome d1 d2 (State.fresh d1) (State.fresh d2) := by
  refine ⟨rfl, ?_, ?_⟩
  · rintro g ⟨k, sink, hf, _⟩
    simp [State.fresh, map_find] at hf
  · intro g _
    exact ⟨rfl, rfl⟩

/-! ## Routing -/

theorem routed_of_valid (w : World) (lines : List String) (h : valid_lines w lines) :
    lines.map (decode_line w) = (routed w lines).map .ok := by
  induction lines with
  | nil => rfl
  | cons line rest ih =>
    rw [valid_lines_cons] at h
    obtain ⟨k, j, hd⟩ := (decodes_iff w line).1 h.1
    simp [routed, hd, ih h.2]

theorem texts_for_length (w : World) (K : String) (rs : List (String × Json)) :
    (texts_for w K rs).length = (rs.map Prod.fst).count K := by
  induction rs with
  | nil => rfl
  | cons r rest ih =>
    unfold texts_for at ih ⊢
    by_cases h : r.1 = K
    · simp [List.filter_cons, h] at ih ⊢
      exact ih
    · have h1 : (r.1 == K) = false := by simpa using h
      simp [List.filter_cons, h, List.count_cons, h1] at ih ⊢
      exact ih

/-- C1, refuted as stated: the keys `a` and `./a` name the same file `a.json`, which after
the run does not hold the one record of `a`; the file of the key `x/y` cannot be opened,
the only file the run creates is `a.json`, and the record of `x/y` is in no file. -/
theorem file_content_counterexample :
    valid_lines (demo input_alias) (read_lines input_alias) ∧
    texts_for (demo input_alias) "a" (routed (demo input_alias) (read_lines input_alias)) =
      [record_text "a" ++ "\n"] ∧
    (demo input_alias).open_for_write (sink_path none "a") = some "a.json" ∧
    (demo input_alias).open_for_write (sink_path none "./a") = some "a.json" ∧
    (run (demo input_alias) none input_alias empty_disk).1.disk "a.json" ≠
      some (record_text "a" ++ "\n") ∧
    valid_lines (demo input_unopenable) (read_lines input_unopenable) ∧
    texts_for (demo input_unopenable) "x/y"
      (routed (demo input_unopenable) (read_lines input_unopenable)) =
      [record_text "x/y" ++ "\n"] ∧
    (demo input_unopenable).open_for_write (sink_path none "x/y") = none ∧
    files_created (run (demo input_unopenable) none input_unopenable empty_disk).1.outfiles =
      ["a.json"] ∧
    (run (demo input_unopenable) none input_unopenable empty_disk).1.disk "a.json" =
      some (record_text "a" ++ "\n") := by
  decide

/-- C1 (amended): when every line of the input decodes to a record with a routing key,
the run returns 0, every line is routed, and for every key `K` the texts written to the
sink of `K` are, in input order, the serialised records with key `K`, each followed by a
newline, and nothing else; when the file of `K` can be opened and written and no other
key of the input names it, the file holds exactly the concatenation of these texts after
the run. -/
theorem per_key_output (w : World) (D : Option String) (input : String) (disk : Disk)
    (hvalid : valid_lines w (read_lines input)) :
    (run w D input disk).2 = .returned 0 ∧
    (read_lines input).map (decode_line w) = (routed w (read_lines input)).map .ok ∧
    (∀ K, written_to K (run w D input disk).1.trace =
      texts_for w K (routed w (read_lines input))) ∧
    (∀ K f, K ∈ keys_of w (read_lines input) →
      w.open_for_write (sink_path D K) = some f →
      (∀ off text, w.write_ok f off text = true) →
      (∀ k, k ∈ keys_of w (read_lines input) → k ≠ K →
        w.open_for_write (sink_path D k) ≠ some f) →
      (run w D input disk).1.disk f =
        some (String.join (texts_for w K (routed w (read_lines input))))) := by
  refine ⟨?_, routed_of_valid w _ hvalid, ?_, ?_⟩
  · rw [run_snd]
    exact main_loop_returns w D _ _ _ hvalid
  · intro K
    rw [run_trace]
    exact (main_loop_events w D _ (read_lines input) disk).2.2.2 K
  · intro K f hK hopen hw halias
    exact run_file_content w D input disk K f hvalid hopen hw halias hK

theorem per_key_output_witness :
    valid_lines (demo input_three) (read_lines input_three) ∧
    (run (demo input_three) none input_three empty_disk).1.disk "a.json" =
      some (String.join (texts_for (demo input_three) "a"
        (routed (demo input_three) (read_lines input_three)))) ∧
    (run (demo input_three) none input_three empty_disk).1.disk "a.json" =
      some (record_text "a" ++ "\n" ++ record_text "a" ++ "\n") ∧
    (run (demo input_three) none input_three empty_disk).1.disk "b.json" =
      some (record_text "b" ++ "\n") :=
  ⟨by decide,
    (per_key_output (demo input_three) none input_three empty_disk (by decide)).2.2.2
      "a" "a.json" (by decide) (by decide) (fun _ _ => rfl) (by decide),
    by decide, by decide⟩

/-! ## Sinks, keys and files -/

/-- C2, refuted as stated: the keys `a` and `./a` are two distinct keys and the run opens
both sinks on the one file `a.json`; the keys `x/y` and `a` are two distinct keys and the
run creates the one file `a.json`, the open for `x/y` failing. -/
theorem files_fewer_than_keys_counterexample :
    valid_lines (demo input_alias) (read_lines input_alias) ∧
    (keys_of (demo input_alias) (read_lines input_alias)).dedup = ["a", "./a"] ∧
    (run (demo input_alias) none input_alias empty_disk).1.outfiles.map
      (fun e => (e.1, e.2.path, e.2.fd)) =
      [("a", "./a.json", some "a.json"), ("./a", "././a.json", some "a.json")] ∧
    files_created (run (demo input_alias) none input_alias empty_disk).1.outfiles =
      ["a.json"] ∧
    valid_lines (demo input_unopenable) (read_lines input_unopenable) ∧
    (keys_of (demo input_unopenable) (read_lines input_unopenable)).dedup = ["x/y", "a"] ∧
    files_created (run (demo input_unopenable) none input_unopenable empty_disk).1.outfiles =
      ["a.json"] := by
  decide

/-- A map whose sinks are all open, on files that differ from key to key, is open on as
many files as it has keys. -/
theorem files_created_length (m : Outfiles) (hnd : (m.map Prod.fst).Nodup)
    (resolve : String → Option FileId)
    (hfd : ∀ e, e ∈ m → e.2.fd = resolve e.1)
    (hsome : ∀ e, e ∈ m → (resolve e.1).isSome = true)
    (hinj : ∀ e1, e1 ∈ m → ∀ e2, e2 ∈ m → resolve e1.1 = resolve e2.1 → e1.1 = e2.1) :
    (files_created m).length = m.length := by
  have key : (m.filterMap fun e => e.2.fd).Nodup ∧
      (m.filterMap fun e => e.2.fd).length = m.length := by
    induction m with
    | nil => simp
    | cons e rest ih =>
      simp only [List.map_cons, List.nodup_cons] at hnd
      obtain ⟨ih1, ih2⟩ := ih hnd.2
        (fun e1 h1 => hfd e1 (List.mem_cons_of_mem _ h1))
        (fun e1 h1 => hsome e1 (List.mem_cons_of_mem _ h1))
        (fun e1 h1 e2 h2 => hinj e1 (List.mem_cons_of_mem _ h1) e2 (List.mem_cons_of_mem _ h2))
      have he := hfd e (List.mem_cons_self _ _)
      obtain ⟨f, hf⟩ := Option.isSome_iff_exists.1 (hsome e (List.mem_cons_self _ _))
      rw [hf] at he
      have hfm : (e :: rest).filterMap (fun e => e.2.fd) =
          f :: rest.filterMap (fun e => e.2.fd) := by
        simp [List.filterMap_cons, he]
      rw [hfm]
      refine ⟨List.nodup_cons.2 ⟨?_, ih1⟩, by simp [ih2]⟩
      intro hmem
      obtain ⟨e2, h2, h2f⟩ := List.mem_filterMap.1 hmem
      have h2mem := List.mem_cons_of_mem e h2
      have : e.1 = e2.1 := by
        apply hinj e (List.mem_cons_self _ _) e2 h2mem
        rw [hf, ← hfd e2 h2mem, h2f]
      apply hnd.1
      rw [this]
      exact List.mem_map_of_mem Prod.fst h2
  unfold files_created
  rw [List.Nodup.dedup key.1, key.2]

/-- A list whose images under a partial function are as many as its elements has an image
for every element. -/
theorem filterMap_length_all_some {α β : Type} (f : α → Option β) (l : List α)
    (h : (l.filterMap f).length = l.length) : ∀ e, e ∈ l → (f e).isSome = true := by
  induction l with
  | nil => intro e he; cases he
  | cons a rest ih =>
    cases hfa : f a with
    | none =>
      rw [List.filterMap_cons_none hfa, List.length_cons] at h
      have := List.length_filterMap_le f rest
      omega
    | some b =>
      rw [List.filterMap_cons_some hfa, List.length_cons, List.length_cons] at h
      intro e he
      rcases List.mem_cons.1 he with rfl | he1
      · rw [hfa]; rfl
      · exact ih (by omega) e he1

/-- Two elements of a list with the same image are equal when the images of the list
have no duplicate. -/
theorem filterMap_nodup_inj {α β : Type} (f : α → Option β) (l : List α)
    (h : (l.filterMap f).Nodup) :
    ∀ e1, e1 ∈ l → ∀ e2, e2 ∈ l → (f e1).isSome = true → f e1 = f e2 → e1 = e2 := by
  induction l with
  | nil => intro e1 h1; cases h1
  | cons a rest ih =>
    intro e1 h1 e2 h2 hs heq
    cases hfa : f a with
    | none =>
      rw [List.filterMap_cons_none hfa] at h
      rcases List.mem_cons.1 h1 with rfl | h1r
      · rw [hfa] at hs; cases hs
      · rcases List.mem_cons.1 h2 with rfl | h2r
        · rw [heq, hfa] at hs; cases hs
        · exact ih h e1 h1r e2 h2r hs heq
    | some b =>
      rw [List.filterMap_cons_some hfa, List.nodup_cons] at h
      rcases List.mem_cons.1 h1 with rfl | h1r
      · rcases List.mem_cons.1 h2 with rfl | h2r
        · rfl
        · exact absurd (List.mem_filterMap.2 ⟨e2, h2r, by rw [← heq, hfa]⟩) h.1
      · rcases List.mem_cons.1 h2 with rfl | h2r
        · exact absurd (List.mem_filterMap.2 ⟨e1, h1r, by rw [heq, hfa]⟩) h.1
        · exact ih h.2 e1 h1r e2 h2r hs heq

/-- A map of sinks is open on at most as many files as it has keys. -/
theorem files_created_length_le (m : Outfiles) : (files_created m).length ≤ m.length :=
  le_trans (List.Sublist.length_le (List.dedup_sublist _)) (List.length_filterMap_le _ m)

/-- A map that is open on as many files as it has keys has all its sinks open, on files
that differ from key to key. -/
theorem files_created_length_conv (m : Outfiles)
    (resolve : String → Option FileId)
    (hfd : ∀ e, e ∈ m → e.2.fd = resolve e.1)
    (hlen : (files_created m).length = m.length) :
    (∀ e, e ∈ m → (resolve e.1).isSome = true) ∧
    (∀ e1, e1 ∈ m → ∀ e2, e2 ∈ m → resolve e1.1 = resolve e2.1 → e1.1 = e2.1) := by
  have h1 : (files_created m).length ≤ (m.filterMap fun e => e.2.fd).length :=
    List.Sublist.length_le (List.dedup_sublist _)
  have h2 : (m.filterMap fun e => e.2.fd).length ≤ m.length := List.length_filterMap_le _ m
  have hall := filterMap_length_all_some (fun e : String × Sink => e.2.fd) m (by omega)
  have hdd : (m.filterMap fun e => e.2.fd).dedup = (m.filterMap fun e => e.2.fd) :=
    (List.dedup_sublist _).eq_of_length (by unfold files_created at hlen h1; omega)
  have hnodup : (m.filterMap fun e => e.2.fd).Nodup := by
    rw [← hdd]; exact List.nodup_dedup _
  refine ⟨fun e he => by rw [← hfd e he]; exact hall e he, ?_⟩
  intro e1 he1 e2 he2 heq
  have := filterMap_nodup_inj (fun e : String × Sink => e.2.fd) m hnodup e1 he1 e2 he2
    (hall e1 he1) (by show e1.2.fd = e2.2.fd; rw [hfd e1 he1, hfd e2 he2, heq])
  rw [this]

/-- C2 (amended): for a valid input of N lines the run returns 0 having routed N
records; the map ends with exactly one sink per distinct routing key and no other, and
the number of writes to the sink of a key is the number of input records with that key;
the run never creates more files than there are distinct keys, and it creates exactly
as many if and only if every key's file can be opened and no two distinct keys of the
input name the same file; in that case a file whose writes succeed holds exactly the
texts of the records of its key, in input order. -/
theorem sinks_match_keys (w : World) (D : Option String) (input : String) (disk : Disk)
    (hvalid : valid_lines w (read_lines input)) :
    (run w D input disk).2 = .returned 0 ∧
    (keys_of w (read_lines input)).length = (read_lines input).length ∧
    ((run w D input disk).1.outfiles.map Prod.fst).Nodup ∧
    (∀ K, K ∈ (run w D input disk).1.outfiles.map Prod.fst ↔
      K ∈ keys_of w (read_lines input)) ∧
    (run w D input disk).1.outfiles.length = (keys_of w (read_lines input)).dedup.length ∧
    (∀ K, (written_to K (run w D input disk).1.trace).length =
      (keys_of w (read_lines input)).count K) ∧
    (files_created (run w D input disk).1.outfiles).length ≤
      (keys_of w (read_lines input)).dedup.length ∧
    ((files_created (run w D input disk).1.outfiles).length =
        (keys_of w (read_lines input)).dedup.length ↔
      (∀ k, k ∈ keys_of w (read_lines input) →
        (w.open_for_write (sink_path D k)).isSome = true) ∧
      (∀ k1, k1 ∈ keys_of w (read_lines input) → ∀ k2, k2 ∈ keys_of w (read_lines input) →
        w.open_for_write (sink_path D k1) = w.open_for_write (sink_path D k2) → k1 = k2)) ∧
    ((∀ k, k ∈ keys_of w (read_lines input) →
        (w.open_for_write (sink_path D k)).isSome = true) →
      (∀ k1, k1 ∈ keys_of w (read_lines input) → ∀ k2, k2 ∈ keys_of w (read_lines input) →
        w.open_for_write (sink_path D k1) = w.open_for_write (sink_path D k2) → k1 = k2) →
      ∀ K f, K ∈ keys_of w (read_lines input) →
        w.open_for_write (sink_path D K) = some f →
        (∀ off text, w.write_ok f off text = true) →
        (run w D input disk).1.disk f =
          some (String.join (texts_for w K (routed w (read_lines input)))) ∧
        (texts_for w K (routed w (read_lines input))).length =
          (keys_of w (read_lines input)).count K) := by
  obtain ⟨hnd, hmem, _, hwr⟩ := main_loop_events w D (input.length % SIZE_RANGE)
    (read_lines input) disk
  have hlen : (main_loop w D (input.length % SIZE_RANGE) (read_lines input)
      (State.fresh disk)).1.outfiles.length =
      (keys_of w (read_lines input)).dedup.length := by
    have hperm : ((main_loop w D (input.length % SIZE_RANGE) (read_lines input)
        (State.fresh disk)).1.outfiles.map Prod.fst).Perm
        (keys_of w (read_lines input)).dedup := by
      rw [List.perm_ext_iff_of_nodup hnd (List.nodup_dedup _)]
      intro K
      rw [List.mem_dedup]
      exact hmem K
    simpa using hperm.length_eq
  have hN : (keys_of w (read_lines input)).length = (read_lines input).length := by
    have h := congrArg List.length (routed_of_valid w _ hvalid)
    simp only [List.length_map] at h
    simp [keys_of, h]
  have hfds := main_loop_sink_fd w D (input.length % SIZE_RANGE) (read_lines input) disk
  have hfd : ∀ e, e ∈ (main_loop w D (input.length % SIZE_RANGE) (read_lines input)
      (State.fresh disk)).1.outfiles → e.2.fd = w.open_for_write (sink_path D e.1) :=
    fun e he => hfds e.1 e.2 (map_find_of_mem _ hnd e.1 e.2 he)
  have hkey : ∀ e, e ∈ (main_loop w D (input.length % SIZE_RANGE) (read_lines input)
      (State.fresh disk)).1.outfiles →
      e.1 ∈ keys_of w (read_lines input) := fun e he =>
    (hmem e.1).1 (List.mem_map_of_mem Prod.fst he)
  have hentry : ∀ k, k ∈ keys_of w (read_lines input) →
      ∃ e, e ∈ (main_loop w D (input.length % SIZE_RANGE) (read_lines input)
        (State.fresh disk)).1.outfiles ∧ e.1 = k := fun k hk => by
    obtain ⟨e, he, hek⟩ := List.mem_map.1 ((hmem k).2 hk)
    exact ⟨e, he, hek⟩
  rw [run_snd, run_outfiles, run_trace]
  refine ⟨main_loop_returns w D _ _ _ hvalid, hN, hnd, hmem, hlen, ?_, ?_, ?_, ?_⟩
  · intro K
    rw [hwr K]
    exact texts_for_length w K _
  · rw [← hlen]
    exact files_created_length_le _
  · rw [← hlen]
    constructor
    · intro h
      obtain ⟨hs, hi⟩ := files_created_length_conv _
        (fun k => w.open_for_write (sink_path D k)) hfd h
      refine ⟨?_, ?_⟩
      · intro k hk
        obtain ⟨e, he, rfl⟩ := hentry k hk
        exact hs e he
      · intro k1 hk1 k2 hk2 heq
        obtain ⟨e1, he1, rfl⟩ := hentry k1 hk1
        obtain ⟨e2, he2, rfl⟩ := hentry k2 hk2
        exact hi e1 he1 e2 he2 heq
    · rintro ⟨hsome, hinj⟩
      apply files_created_length _ hnd (fun k => w.open_for_write (sink_path D k)) hfd
      · intro e he
        exact hsome e.1 (hkey e he)
      · intro e1 h1 e2 h2
        exact hinj e1.1 (hkey e1 h1) e2.1 (hkey e2 h2)
  · intro hsome hinj K f hK hopen hw
    refine ⟨?_, texts_for_length w K _⟩
    apply run_file_content w D input disk K f hvalid hopen hw _ hK
    intro k hk hne heq
    exact hne (hinj k hk K hK (by rw [heq, hopen]))

theorem sinks_match_keys_witness :
    valid_lines (demo input_three) (read_lines input_three) ∧
    (run (demo input_three) none input_three empty_disk).1.outfiles.length =
      (keys_of (demo input_three) (read_lines input_three)).dedup.length ∧
    (files_created (run (demo input_three) none input_three empty_disk).1.outfiles).length =
      (keys_of (demo input_three) (read_lines input_three)).dedup.length ∧
    (run (demo input_three) none input_three empty_disk).1.disk "a.json" =
      some (String.join (texts_for (demo input_three) "a"
        (routed (demo input_three) (read_lines input_three)))) :=
  ⟨by decide,
    (sinks_match_keys (demo input_three) none input_three empty_disk
      (by decide)).2.2.2.2.1,
    (sinks_match_keys (demo input_three) none input_three empty_disk
      (by decide)).2.2.2.2.2.2.2.1.2 ⟨by decide, by decide⟩,
    ((sinks_match_keys (demo input_three) none input_three empty_disk
      (by decide)).2.2.2.2.2.2.2.2 (by decide) (by decide) "a" "a.json" (by decide)
      (by decide) (fun _ _ => rfl)).1⟩

/-! ## Running twice -/

/-- The destruction of the streams keeps two states in the relation `same_outcome`. -/
theorem finish_same_outcome (w : World) (d1 d2 : Disk) (r1 r2 : State × Termination)
    (hnd : (r1.1.outfiles.map Prod.fst).Nodup) (hR : same_outcome d1 d2 r1.1 r2.1)
    (h2 : r1.2 = r2.2) : same_outcome d1 d2 (finish w r1).1 (finish w r2).1 := by
  obtain ⟨hout, hagree, hrest⟩ := hR
  cases ht : r1.2 with
  | terminated e =>
    rw [finish_terminated w r1 e ht, finish_terminated w r2 e (by rw [← h2]; exact ht)]
    exact ⟨hout, hagree, hrest⟩
  | returned c =>
    have ht2 : r2.2 = .returned c := by rw [← h2]; exact ht
    refine ⟨?_, ?_, ?_⟩
    · rw [finish_outfiles, finish_outfiles]
      exact hout
    · intro g hg
      rw [finish_outfiles] at hg
      rw [finish_returned w r1 c ht, finish_returned w r2 c ht2, ← hout]
      exact destroy_streams_agree w _ _ _ g (hagree g hg)
    · intro g hg
      rw [finish_outfiles] at hg
      have hno : ∀ e, e ∈ r1.1.outfiles → e.2.fd ≠ some g := by
        intro e he hfd
        exact hg ⟨e.1, e.2, map_find_of_mem _ hnd e.1 e.2 he, hfd⟩
      rw [finish_returned w r1 c ht, finish_returned w r2 c ht2, ← hout,
        destroy_streams_other w _ _ g hno, destroy_streams_other w _ _ g hno]
      exact hrest g hg

/-- Two runs on the same input from two disks end in the relation `same_outcome`. -/
theorem run_same_outcome (w : World) (D : Option String) (input : String) (d1 d2 : Disk) :
    same_outcome d1 d2 (run w D input d1).1 (run w D input d2).1 := by
  obtain ⟨hR, h2⟩ := main_loop_same_outcome w D (input.length % SIZE_RANGE) d1 d2
    (read_lines input) _ _ (same_outcome_fresh d1 d2)
  exact finish_same_outcome w d1 d2 _ _
    (main_loop_events w D (input.length % SIZE_RANGE) (read_lines input) d1).1 hR h2

/-- C8: for a valid input and any initial contents of the files, a second run on the
same input leaves every file, and the map of sinks, as the first run left them, both runs
returning 0; the contents the run leaves in a file it opens do not depend on what the
file held before (they are discarded, not appended to), the file named by a routing key
is one of these, and a file the run does not open keeps its contents. -/
theorem rerun_idempotent (w : World) (D : Option String) (input : String) (disk : Disk)
    (hvalid : valid_lines w (read_lines input)) :
    (run w D input (run w D input disk).1.disk).1.disk = (run w D input disk).1.disk ∧
    (run w D input (run w D input disk).1.disk).1.outfiles = (run w D input disk).1.outfiles ∧
    (run w D input disk).2 = .returned 0 ∧
    (run w D input (run w D input disk).1.disk).2 = .returned 0 ∧
    (∀ other g, opened_on (run w D input disk).1.outfiles g →
      (run w D input other).1.disk g = (run w D input disk).1.disk g) ∧
    (∀ K f, K ∈ keys_of w (read_lines input) → w.open_for_write (sink_path D K) = some f →
      opened_on (run w D input disk).1.outfiles f) ∧
    (∀ g, ¬ opened_on (run w D input disk).1.outfiles g →
      (run w D input disk).1.disk g = disk g) := by
  have hrel : ∀ d2, same_outcome disk d2 (run w D input disk).1 (run w D input d2).1 :=
    fun d2 => run_same_outcome w D input disk d2
  have hret : ∀ d, (run w D input d).2 = .returned 0 := by
    intro d
    rw [run_snd]
    exact main_loop_returns w D _ _ _ hvalid
  refine ⟨?_, ?_, hret _, hret _, ?_, ?_, ?_⟩
  · obtain ⟨_, hagree, hrest⟩ := hrel (run w D input disk).1.disk
    funext g
    by_cases hg : opened_on (run w D input disk).1.outfiles g
    · exact (hagree g hg).symm
    · exact (hrest g hg).2
  · exact (hrel _).1.symm
  · intro other g hg
    exact ((hrel other).2.1 g hg).symm
  · intro K f hK hopen
    obtain ⟨_, hmem, _, _⟩ := main_loop_events w D (input.length % SIZE_RANGE)
      (read_lines input) disk
    have hfds := main_loop_sink_fd w D (input.length % SIZE_RANGE) (read_lines input) disk
    rw [run_outfiles]
    cases hf : map_find (main_loop w D (input.length % SIZE_RANGE) (read_lines input)
      (State.fresh disk)).1.outfiles K with
    | none =>
      exact absurd ((hmem K).2 hK) ((map_find_isNone_iff _ K).1 (by rw [hf]; rfl))
    | some sink => exact ⟨K, sink, hf, by rw [hfds K sink hf, hopen]⟩
  · intro g hg
    exact ((hrel disk).2.2 g hg).1

theorem rerun_idempotent_witness :
    valid_lines (demo input_three) (read_lines input_three) ∧
    stale_disk "a.json" = some "stale\n" ∧
    (run (demo input_three) none input_three
      (run (demo input_three) none input_three stale_disk).1.disk).1.disk =
      (run (demo input_three) none input_three stale_disk).1.disk ∧
    (run (demo input_three) none input_three stale_disk).1.disk "a.json" =
      some (record_text "a" ++ "\n" ++ record_text "a" ++ "\n") :=
  ⟨by decide, by decide,
    (rerun_idempotent (demo input_three) none input_three stale_disk (by decide)).1,
    by decide⟩

/-! ## The function `split` -/

theorem split_loop_timeout (str : String) (chr : Char) (h : chr ∈ str.toList) :
    ∀ fuel parts, split_loop str chr fuel parts = .timeout := by
  intro fuel
  induction fuel with
  | zero => intro parts; rfl
  | succ n ih =>
    intro parts
    unfold split_loop
    simp only [h, if_true]
    exact ih _

theorem split_ok (str : String) (chr : Char) (h : chr ∉ str.toList) (fuel : Nat) :
    split (fuel + 1) str chr = .ok [str] := by
  unfold split split_loop
  rw [if_neg h]
  rfl

/-- C17: `split(str, chr)` returns, given enough fuel, exactly when `str` does not contain
`chr`; it then returns the one-element list `[str]`, one turn of the loop being enough;
when `str` contains `chr` the loop does not end within any number of turns, each turn
pushing the whole of `cur_str` and leaving it unchanged. -/
theorem split_terminates_iff (str : String) (chr : Char) :
    ((∃ fuel parts, split fuel str chr = .ok parts) ↔ chr ∉ str.toList) ∧
    (chr ∉ str.toList → ∀ fuel, split (fuel + 1) str chr = .ok [str]) ∧
    (chr ∈ str.toList → ∀ fuel, split fuel str chr = .timeout) ∧
    (chr ∈ str.toList → ∀ fuel parts,
      split_loop str chr (fuel + 1) parts = split_loop str chr fuel (parts ++ [str])) := by
  refine ⟨⟨?_, ?_⟩, ?_, ?_, ?_⟩
  · rintro ⟨fuel, parts, h⟩ hin
    have := split_loop_timeout str chr hin fuel []
    unfold split at h
    rw [this] at h
    cases h
  · intro h
    exact ⟨1, [str], split_ok str chr h 0⟩
  · intro h fuel
    exact split_ok str chr h fuel
  · intro h fuel
    exact split_loop_timeout str chr h fuel []
  · intro h fuel parts
    conv_lhs => unfold split_loop
    rw [if_pos h]

/-! ## Argument parsing -/

theorem parse_option_timeout (fuel : Nat) (self : Args) (arg : String)
    (h : '=' ∈ arg.toList) : Args.parse_option fuel self arg = .timeout := by
  unfold Args.parse_option split
  rw [split_loop_timeout arg '=' h]
  rfl

theorem parse_option_plain (fuel : Nat) (self : Args) (arg : String)
    (h : '=' ∉ arg.toList) (hopt : is_option arg = false) :
    Args.parse_option (fuel + 1) self arg = .ok (false, self) := by
  have h1 : ¬ first_char arg = '-' := by simpa [is_option] using hopt
  unfold Args.parse_option
  rw [split_ok arg '=' h]
  simp [Res.bind, h1]

theorem parse_option_dash (fuel : Nat) (self : Args) (arg : String)
    (h : '=' ∉ arg.toList) (hopt : is_option arg = true) :
    Args.parse_option (fuel + 1) self arg = .ok (true, apply_option self arg) := by
  have h1 : first_char arg = '-' := by simpa [is_option] using hopt
  unfold Args.parse_option
  rw [split_ok arg '=' h]
  by_cases hh : arg = "--help" ∨ arg = "-h"
  · simp [Res.bind, h1, hh, apply_option, is_help_option]
  · simp [Res.bind, h1, hh, apply_option, is_help_option]

/-- The options loop over arguments without `=`: it consumes the arguments that start
with `-` and stops at the first that does not. -/
theorem parse_options_spec (fuel : Nat) :
    ∀ (opts rest : List String) (i : Nat) (self : Args),
      (∀ o, o ∈ opts → is_option o = true ∧ '=' ∉ o.toList) →
      (rest = [] ∨ ∃ file tail, rest = file :: tail ∧ is_option file = false ∧
        '=' ∉ file.toList) →
      Args.parse_options (fuel + 1) (opts ++ rest) i self =
        .ok (i + opts.length, opts.foldl apply_option self) := by
  intro opts
  induction opts with
  | nil =>
    intro rest i self _ hrest
    rcases hrest with rfl | ⟨file, tail, rfl, hf, he⟩
    · rfl
    · simp [Args.parse_options, parse_option_plain fuel self file he hf, Res.bind]
  | cons o os ih =>
    intro rest i self hopts hrest
    have ho := hopts o (List.mem_cons_self _ _)
    have hos : ∀ o1, o1 ∈ os → is_option o1 = true ∧ '=' ∉ o1.toList :=
      fun o1 h1 => hopts o1 (List.mem_cons_of_mem _ h1)
    have hih := ih rest (i + 1) (apply_option self o) hos hrest
    rw [show (o :: os) ++ rest = o :: (os ++ rest) from rfl, Args.parse_options,
      parse_option_dash fuel self o ho.2 ho.1]
    simp only [Res.bind, if_true, List.foldl_cons, List.length_cons]
    rw [hih]
    congr 2
    omega

/-- Whenever the options loop returns, it has consumed arguments that start with `-` and
have no `=`, and stopped at the end or at an argument without `-` and `=`. -/
theorem parse_options_ok_inv (fuel : Nat) :
    ∀ (l : List String) (i : Nat) (self : Args) (i1 : Nat) (self1 : Args),
      Args.parse_options fuel l i self = .ok (i1, self1) →
      ∃ opts rest, l = opts ++ rest ∧
        (∀ o, o ∈ opts → is_option o = true ∧ '=' ∉ o.toList) ∧
        i1 = i + opts.length ∧ self1 = opts.foldl apply_option self ∧
        (rest = [] ∨ ∃ file tail, rest = file :: tail ∧ is_option file = false ∧
          '=' ∉ file.toList) := by
  intro l
  induction l with
  | nil =>
    intro i self i1 self1 h
    simp only [Args.parse_options, Res.ok.injEq, Prod.mk.injEq] at h
    exact ⟨[], [], rfl, by simp, by simp [h.1], by simp [h.2], Or.inl rfl⟩
  | cons a l ih =>
    intro i self i1 self1 h
    cases fuel with
    | zero =>
      simp [Args.parse_options, Args.parse_option, split, split_loop, Res.bind] at h
    | succ n =>
      by_cases he : '=' ∈ a.toList
      · simp [Args.parse_options, parse_option_timeout (n + 1) self a he, Res.bind] at h
      · cases hopt : is_option a with
        | false =>
          simp only [Args.parse_options, parse_option_plain n self a he hopt, Res.bind,
            Bool.false_eq_true, if_false, Res.ok.injEq, Prod.mk.injEq] at h
          refine ⟨[], a :: l, rfl, by simp, by simp [h.1], by simp [h.2], Or.inr ?_⟩
          exact ⟨a, l, rfl, hopt, he⟩
        | true =>
          simp only [Args.parse_options, parse_option_dash n self a he hopt, Res.bind,
            if_true] at h
          obtain ⟨opts, rest, hl, hopts, hi, hs, hrest⟩ := ih _ _ _ _ h
          refine ⟨a :: opts, rest, by simp [hl], ?_, ?_, ?_, hrest⟩
          · intro o ho
            rcases List.mem_cons.1 ho with rfl | ho
            · exact ⟨hopt, he⟩
            · exact hopts o ho
          · simp only [List.length_cons]; omega
          · simpa using hs

/-- The options leave nothing in the object but `command` and `invalid_args`, which
collects the options other than the help options. -/
theorem foldl_apply_option (opts : List String) :
    ∀ self : Args,
      (opts.foldl apply_option self).filename = self.filename ∧
      (opts.foldl apply_option self).program_name = self.program_name ∧
      (opts.foldl apply_option self).invalid_args =
        self.invalid_args ++ opts.filter (fun o => !is_help_option o) ∧
      (opts.foldl apply_option self).out_folder = self.out_folder ∧
      (opts.foldl apply_option self).unique_path = self.unique_path := by
  induction opts with
  | nil => intro self; simp
  | cons o os ih =>
    intro self
    rw [List.foldl_cons]
    obtain ⟨h1, h2, h3, h4, h5⟩ := ih (apply_option self o)
    rw [h1, h2, h3, h4, h5]
    by_cases hh : is_help_option o = true
    · simp [apply_option, hh]
    · simp [apply_option, hh]

theorem get?_append_length {α : Type} (l : List α) (a : α) (t : List α) :
    (l ++ a :: t).get? l.length = some a := by
  induction l with
  | nil => rfl
  | cons x xs ih => simpa using ih

theorem drop_append_length_succ {α : Type} (l : List α) (a : α) (t : List α) :
    (l ++ a :: t).drop (l.length + 1) = t := by
  induction l with
  | nil => rfl
  | cons x xs ih => simp

/-- The method `Args::parse` on a non-empty argument vector. -/
theorem parse_cons (fuel : Nat) (prog : String) (l : List String) :
    Args.parse fuel (prog :: l) =
      (Args.parse_options fuel l 1 { program_name := prog }).bind fun r =>
        if r.1 > (prog :: l).length then
          .ok { r.2 with command := .ERROR }
        else
          match (prog :: l).get? r.1 with
          | none => .fault
          | some file =>
            .ok { r.2 with
                  filename := file,
                  unique_path := r.2.unique_path ++ (prog :: l).drop (r.1 + 1),
                  command := .EXECUTE } :=
  rfl

/-- The result of `Args::parse` on options without `=` followed by a file name without
`=` and further arguments. -/
theorem parse_spec (fuel : Nat) (prog : String) (opts : List String) (file : String)
    (tail : List String)
    (hopts : ∀ o, o ∈ opts → is_option o = true ∧ '=' ∉ o.toList)
    (hfile : is_option file = false) (hfe : '=' ∉ file.toList) :
    Args.parse (fuel + 1) (prog :: (opts ++ file :: tail)) =
      .ok { filename := file,
            program_name := prog,
            invalid_args := opts.filter (fun o => !is_help_option o),
            out_folder := none,
            command := .EXECUTE,
            unique_path := tail } := by
  rw [parse_cons, parse_options_spec fuel opts (file :: tail) 1 _ hopts
    (Or.inr ⟨file, tail, rfl, hfile, hfe⟩)]
  have hlen : ¬ (1 + opts.length > (prog :: (opts ++ file :: tail)).length) := by
    simp only [List.length_cons, List.length_append]; omega
  have hget : (prog :: (opts ++ file :: tail)).get? (1 + opts.length) = some file := by
    rw [Nat.add_comm, List.get?_cons_succ]
    exact get?_append_length opts file tail
  have hdrop : (prog :: (opts ++ file :: tail)).drop (1 + opts.length + 1) = tail := by
    rw [List.drop_succ_cons, Nat.add_comm]
    exact drop_append_length_succ opts file tail
  obtain ⟨_, h2, h3, h4, h5⟩ := foldl_apply_option opts { program_name := prog }
  simp only [List.nil_append] at h2 h3 h4 h5
  simp only [Res.bind]
  rw [if_neg hlen, hget]
  simp only [hdrop, h2, h3, h4, h5, List.nil_append]

/-- The method `Args::parse` on options without `=` and nothing else reads `argv[argc]`. -/
theorem parse_no_file (fuel : Nat) (prog : String) (opts : List String)
    (hopts : ∀ o, o ∈ opts → is_option o = true ∧ '=' ∉ o.toList) :
    Args.parse (fuel + 1) (prog :: opts) = .fault := by
  have hpo := parse_options_spec fuel opts [] 1 { program_name := prog } hopts (Or.inl rfl)
  rw [List.append_nil] at hpo
  have hlen : ¬ (1 + opts.length > (prog :: opts).length) := by
    simp only [List.length_cons]; omega
  have hget : (prog :: opts).get? (1 + opts.length) = none := by
    rw [List.get?_eq_none]
    simp only [List.length_cons]; omega
  rw [parse_cons, hpo]
  simp only [Res.bind]
  rw [if_neg hlen, hget]

/-- Whenever `Args::parse` returns, the arguments are options without `=` followed by a
file name without `=` and further arguments, and the result is the one of `parse_spec`. -/
theorem parse_ok_inv (fuel : Nat) (argv : List String) (args : Args)
    (h : Args.parse fuel argv = .ok args) :
    ∃ prog opts file tail, argv = prog :: (opts ++ file :: tail) ∧
      (∀ o, o ∈ opts → is_option o = true ∧ '=' ∉ o.toList) ∧
      is_option file = false ∧ '=' ∉ file.toList ∧
      args = { filename := file,
               program_name := prog,
               invalid_args := opts.filter (fun o => !is_help_option o),
               out_folder := none,
               command := .EXECUTE,
               unique_path := tail } := by
  cases argv with
  | nil => simp [Args.parse] at h
  | cons prog l =>
    cases hpo : Args.parse_options fuel l 1 { program_name := prog } with
    | timeout => rw [parse_cons, hpo] at h; cases h
    | fault => rw [parse_cons, hpo] at h; cases h
    | ok r =>
      obtain ⟨i1, self1⟩ := r
      obtain ⟨opts, rest, hl, hopts, hi, hs, hrest⟩ := parse_options_ok_inv _ _ _ _ _ _ hpo
      cases fuel with
      | zero =>
        cases l with
        | nil =>
          rw [parse_cons] at h
          simp [Args.parse_options, Res.bind] at h
        | cons a l1 =>
          simp [Args.parse_options, Args.parse_option, split, split_loop, Res.bind] at hpo
      | succ n =>
        rcases hrest with rfl | ⟨file, tail, rfl, hfile, hfe⟩
        · rw [List.append_nil] at hl
          subst hl
          rw [parse_no_file n prog l hopts] at h
          cases h
        · subst hl
          refine ⟨prog, opts, file, tail, rfl, hopts, hfile, hfe, ?_⟩
          have := parse_spec n prog opts file tail hopts hfile hfe
          rw [h] at this
          exact Res.ok.inj this

/-- The options loop does not return once it meets an argument with `=`. -/
theorem parse_options_timeout (fuel : Nat) :
    ∀ (opts : List String) (bad : String) (tail : List String) (i : Nat) (self : Args),
      (∀ o, o ∈ opts → is_option o = true ∧ '=' ∉ o.toList) → '=' ∈ bad.toList →
      Args.parse_options fuel (opts ++ bad :: tail) i self = .timeout := by
  intro opts
  induction opts with
  | nil =>
    intro bad tail i self _ hbad
    simp [Args.parse_options, parse_option_timeout fuel self bad hbad, Res.bind]
  | cons o os ih =>
    intro bad tail i self hopts hbad
    have ho := hopts o (List.mem_cons_self _ _)
    have hos : ∀ o1, o1 ∈ os → is_option o1 = true ∧ '=' ∉ o1.toList :=
      fun o1 h1 => hopts o1 (List.mem_cons_of_mem _ h1)
    cases fuel with
    | zero => simp [Args.parse_options, Args.parse_option, split, split_loop, Res.bind]
    | succ n =>
      have hih := ih bad tail (i + 1) (apply_option self o) hos hbad
      rw [show (o :: os) ++ bad :: tail = o :: (os ++ bad :: tail) from rfl,
        Args.parse_options, parse_option_dash n self o ho.2 ho.1]
      simp only [Res.bind, if_true]
      exact hih

/-- The method `Args::parse` does not return when an argument with `=` stands before or
at the place of the file name. -/
theorem parse_timeout (fuel : Nat) (prog : String) (opts : List String) (bad : String)
    (tail : List String) (hopts : ∀ o, o ∈ opts → is_option o = true ∧ '=' ∉ o.toList)
    (hbad : '=' ∈ bad.toList) :
    Args.parse fuel (prog :: (opts ++ bad :: tail)) = .timeout := by
  rw [parse_cons, parse_options_timeout fuel opts bad tail 1 _ hopts hbad]
  rfl

theorem mem_toList_append_left (c : Char) (a b : String) (h : c ∈ a.toList) :
    c ∈ (a ++ b).toList := by
  show c ∈ (a ++ b).data
  rw [String.data_append]
  exact List.mem_append_left _ h

/-! ## The output directory option -/

/-- C11, evaluated on failing inputs: for every directory `dir` and file name `f`, on
`[prog, "-o=" + dir, f]` and on `[prog, "--out-folder=" + dir, f]` the method
`Args::parse` does not return within any number of turns of the loop of `split`, which
is called on the option and finds `=` in it; accordingly no returning call of
`Args::parse` sets `out_folder`.  Without `out_folder` the sink of a key is opened in
the directory `.`. -/
theorem parse_out_folder_never_returns (fuel : Nat) (prog dir f : String) :
    Args.parse fuel [prog, "-o=" ++ dir, f] = .timeout ∧
    Args.parse fuel [prog, "--out-folder=" ++ dir, f] = .timeout ∧
    Args.parse fuel ["jsplit", "-o=out", "in.json"] = .timeout ∧
    (∀ argv args, Args.parse fuel argv = .ok args → args.out_folder = none) ∧
    (∀ K, sink_path none K = path_join "." (K ++ ".json")) := by
  refine ⟨?_, ?_, ?_, ?_, fun _ => rfl⟩
  · exact parse_timeout fuel prog [] _ [f] (by simp)
      (mem_toList_append_left '=' "-o=" dir (by decide))
  · exact parse_timeout fuel prog [] _ [f] (by simp)
      (mem_toList_append_left '=' "--out-folder=" dir (by decide))
  · exact parse_timeout fuel "jsplit" [] "-o=out" ["in.json"] (by simp) (by decide)
  · intro argv args h
    obtain ⟨_, _, _, _, _, _, _, _, hargs⟩ := parse_ok_inv fuel argv args h
    rw [hargs]

/-! ## The file name and the trailing arguments -/

/-- C12, evaluated on failing inputs: when the first argument that does not start with
`-`, or an option before it, contains `=`, the method `Args::parse` does not return (the
loop of `split` does not end); when these arguments have no `=` it returns with
`filename = argv[i]`, `unique_path` the arguments after `argv[i]` in order, whatever they
start with, and `program_name = argv[0]`. -/
theorem parse_filename_and_tail (fuel : Nat) :
    Args.parse fuel ["jsplit", "a=b.json", "x"] = .timeout ∧
    Args.parse fuel ["jsplit", "--key=v", "in.json", "x"] = .timeout ∧
    (∀ prog opts bad tail, (∀ o, o ∈ opts → is_option o = true ∧ '=' ∉ o.toList) →
      '=' ∈ bad.toList → Args.parse fuel (prog :: (opts ++ bad :: tail)) = .timeout) ∧
    (∀ prog opts file tail, (∀ o, o ∈ opts → is_option o = true ∧ '=' ∉ o.toList) →
      is_option file = false → '=' ∉ file.toList →
      ∃ args, Args.parse (fuel + 1) (prog :: (opts ++ file :: tail)) = .ok args ∧
        args.filename = file ∧ args.unique_path = tail ∧ args.program_name = prog) ∧
    Args.parse (fuel + 1) ["jsplit", "-v", "in.json", "-x", "inparams", "target"] =
      .ok { filename := "in.json", program_name := "jsplit", invalid_args := ["-v"],
            command := .EXECUTE, unique_path := ["-x", "inparams", "target"] } := by
  refine ⟨?_, ?_, ?_, ?_, ?_⟩
  · exact parse_timeout fuel "jsplit" [] "a=b.json" ["x"] (by simp) (by decide)
  · exact parse_timeout fuel "jsplit" [] "--key=v" ["in.json", "x"] (by simp) (by decide)
  · intro prog opts bad tail hopts hbad
    exact parse_timeout fuel prog opts bad tail hopts hbad
  · intro prog opts file tail hopts hfile hfe
    exact ⟨_, parse_spec fuel prog opts file tail hopts hfile hfe, rfl, rfl, rfl⟩
  · exact parse_spec fuel "jsplit" ["-v"] "in.json" ["-x", "inparams", "target"]
      (by decide) (by decide) (by decide)

/-! ## Unrecognised options -/

/-- C13, evaluated on failing inputs: with the unrecognised option `-x` before the file
name `Args::parse` records the option in `invalid_args` but ends with
`command = EXECUTE`, and `main` processes the file, prints no help text and returns 0;
with `-x` as the last argument `Args::parse` reads the null pointer `argv[argc]`; with
the unrecognised option `--key=v` it does not return. -/
theorem parse_unrecognised_option_executes (fuel : Nat) :
    Args.parse (fuel + 1) ["jsplit", "-x", "in.json"] =
      .ok { filename := "in.json", program_name := "jsplit", invalid_args := ["-x"],
            command := .EXECUTE } ∧
    main (demo input_three) (fuel + 1) ["jsplit", "-x", "in.json"] empty_disk =
      .ok (run (demo input_three) none input_three empty_disk) ∧
    (run (demo input_three) none input_three empty_disk).1.trace.any Event.is_help = false ∧
    exit_status (run (demo input_three) none input_three empty_disk).2 = 0 ∧
    Args.parse (fuel + 1) ["jsplit", "-x"] = .fault ∧
    Args.parse fuel ["jsplit", "--key=v", "in.json"] = .timeout := by
  have h1 : Args.parse (fuel + 1) ["jsplit", "-x", "in.json"] =
      .ok { filename := "in.json", program_name := "jsplit", invalid_args := ["-x"],
            command := .EXECUTE } :=
    parse_spec fuel "jsplit" ["-x"] "in.json" [] (by decide) (by decide) (by decide)
  refine ⟨h1, ?_, by decide, by decide, ?_, ?_⟩
  · simp [main, h1, Res.bind, demo]
  · exact parse_no_file fuel "jsplit" ["-x"] (by decide)
  · exact parse_timeout fuel "jsplit" [] "--key=v" ["in.json"] (by simp) (by decide)

/-! ## A missing file name -/

/-- C14, evaluated on failing inputs: without any argument after `argv[0]`, and when
every argument after `argv[0]` is consumed as an option, `Args::parse` does not end with
`command = ERROR`: the index the options loop leaves is at most `argc`, so the guard
`i > argc` is never true, and `argv[argc]`, the null pointer, is read as the file name;
`main` has the same fault. -/
theorem parse_without_file_faults (fuel : Nat) :
    Args.parse fuel ["jsplit"] = .fault ∧
    Args.parse (fuel + 1) ["jsplit", "-h"] = .fault ∧
    Args.parse (fuel + 1) ["jsplit", "-x", "--verbose"] = .fault ∧
    (∀ prog opts, (∀ o, o ∈ opts → is_option o = true ∧ '=' ∉ o.toList) →
      Args.parse (fuel + 1) (prog :: opts) = .fault) ∧
    (∀ l i self i1 self1, Args.parse_options fuel l i self = .ok (i1, self1) →
      i1 ≤ i + l.length) ∧
    (∀ w disk, main w fuel ["jsplit"] disk = .fault) := by
  have h0 : Args.parse fuel ["jsplit"] = .fault := by
    rw [parse_cons]
    simp [Args.parse_options, Res.bind]
  refine ⟨h0, ?_, ?_, ?_, ?_, ?_⟩
  · exact parse_no_file fuel "jsplit" ["-h"] (by decide)
  · exact parse_no_file fuel "jsplit" ["-x", "--verbose"] (by decide)
  · intro prog opts hopts
    exact parse_no_file fuel prog opts hopts
  · intro l i self i1 self1 h
    obtain ⟨opts, rest, hl, _, hi, _, _⟩ := parse_options_ok_inv fuel l i self i1 self1 h
    rw [hi, hl, List.length_append]
    omega
  · intro w disk
    simp [main, h0, Res.bind]

/-! ## Options and the outcome of parsing -/

/-- C18: whenever `Args::parse` returns, the arguments are options followed by a file
name that does not start with `-` and further arguments, and the object has
`command = EXECUTE` and no `out_folder`; it is the object the same arguments without
the options give, but for `invalid_args`, which lists the options other than `-h` and
`--help`. -/
theorem options_leave_only_invalid_args (fuel : Nat) (argv : List String) (args : Args)
    (h : Args.parse fuel argv = .ok args) :
    args.command = .EXECUTE ∧ args.out_folder = none ∧
    ∃ prog opts file tail, argv = prog :: (opts ++ file :: tail) ∧
      (∀ o, o ∈ opts → is_option o = true) ∧ is_option file = false ∧
      args = { filename := file,
               program_name := prog,
               invalid_args := opts.filter (fun o => !is_help_option o),
               out_folder := none,
               command := .EXECUTE,
               unique_path := tail } ∧
      Args.parse fuel (prog :: file :: tail) = .ok { args with invalid_args := [] } := by
  obtain ⟨prog, opts, file, tail, hargv, hopts, hfile, hfe, hargs⟩ :=
    parse_ok_inv fuel argv args h
  refine ⟨by rw [hargs], by rw [hargs], prog, opts, file, tail, hargv,
    fun o ho => (hopts o ho).1, hfile, hargs, ?_⟩
  cases fuel with
  | zero =>
    subst hargv
    rw [parse_cons] at h
    cases opts with
    | nil => simp [Args.parse_options, Args.parse_option, split, split_loop, Res.bind] at h
    | cons o os =>
      simp [Args.parse_options, Args.parse_option, split, split_loop, Res.bind] at h
  | succ n =>
    have := parse_spec n prog [] file tail (by simp) hfile hfe
    rw [List.nil_append] at this
    rw [this, hargs]
    rfl

theorem options_leave_only_invalid_args_witness :
    Args.parse 1 ["jsplit", "-h", "-x", "in.json", "k"] =
      .ok { filename := "in.json", program_name := "jsplit", invalid_args := ["-x"],
            command := .EXECUTE, unique_path := ["k"] } ∧
    ({ filename := "in.json", program_name := "jsplit", invalid_args := ["-x"],
       command := .EXECUTE, unique_path := ["k"] } : Args).command = .EXECUTE :=
  ⟨by decide,
    (options_leave_only_invalid_args 1 ["jsplit", "-h", "-x", "in.json", "k"] _
      (by decide)).1⟩

/-! ## The remaining time -/

/-- C16: over the rationals, with elapsed time `e = cur - start ≥ 0` and `pos > 0`, the
remaining time `print_progress` computes is `(e / pos) * filesize - e`, the extrapolated
total less the elapsed time; it is not negative when `pos ≤ filesize` and is 0 when
`pos = filesize`. -/
theorem remaining_time (cur start : ℚ) (filesize pos : Nat) (key : String)
    (he : 0 ≤ cur - start) (hpos : 0 < pos) :
    (print_progress cur start filesize pos key).left =
      ((cur - start) / (pos : ℚ)) * (filesize : ℚ) - (cur - start) ∧
    (print_progress cur start filesize pos key).left =
      (print_progress cur start filesize pos key).total_expected -
        (print_progress cur start filesize pos key).elapsed ∧
    (pos ≤ filesize → 0 ≤ (print_progress cur start filesize pos key).left) ∧
    (pos = filesize → (print_progress cur start filesize pos key).left = 0) := by
  have hp : (0 : ℚ) < (pos : ℚ) := by exact_mod_cast hpos
  have hform : (print_progress cur start filesize pos key).left =
      ((cur - start) / (pos : ℚ)) * ((filesize : ℚ) - (pos : ℚ)) := by
    simp only [print_progress]
    field_simp
    ring
  refine ⟨rfl, rfl, ?_, ?_⟩
  · intro hle
    rw [hform]
    apply mul_nonneg (div_nonneg he hp.le)
    rw [sub_nonneg]
    exact_mod_cast hle
  · intro heq
    rw [hform, heq, sub_self, mul_zero]

theorem remaining_time_witness :
    (0 : ℚ) ≤ 10 - 0 ∧ 0 < 27 ∧
    (print_progress 10 0 84 27 "a").left = ((10 - 0) / ((27 : Nat) : ℚ)) * ((84 : Nat) : ℚ) - (10 - 0) :=
  ⟨by norm_num, by norm_num, (remaining_time 10 0 84 27 "a" (by norm_num) (by norm_num)).1⟩

/-! ## The byte count -/

theorem total_length_append (l1 l2 : List String) :
    total_length (l1 ++ l2) = total_length l1 + total_length l2 := by
  simp [total_length]

theorem total_length_take_le (ls : List String) (n : Nat) :
    total_length (ls.take n) ≤ total_length ls := by
  conv_rhs => rw [← List.take_append_drop n ls]
  rw [total_length_append]
  omega

theorem total_length_take_ge (ls : List String) (hpos : ∀ l, l ∈ ls → 1 ≤ l.length) :
    ∀ n, n ≤ ls.length → n ≤ total_length (ls.take n) := by
  induction ls with
  | nil =>
    intro n hn
    simp only [List.length_nil, Nat.le_zero_eq] at hn
    subst hn
    exact Nat.zero_le _
  | cons l rest ih =>
    intro n hn
    cases n with
    | zero => exact Nat.zero_le _
    | succ m =>
      have h1 := hpos l (List.mem_cons_self _ _)
      have h2 := ih (fun x hx => hpos x (List.mem_cons_of_mem _ hx)) m
        (by simpa using hn)
      simp only [List.take_succ_cons, total_length, List.map_cons, List.sum_cons] at h2 ⊢
      omega

/-- The lines and the newlines make up the whole input. -/
theorem read_lines_from_length :
    ∀ (cs cur : List Char),
      total_length (read_lines_from cur cs) + cs.count '\n' = cur.length + cs.length := by
  intro cs
  induction cs with
  | nil =>
    intro cur
    cases cur with
    | nil => rfl
    | cons c cur1 => simp [read_lines_from, total_length, String.length]
  | cons c rest ih =>
    intro cur
    unfold read_lines_from
    by_cases hc : c = '\n'
    · subst hc
      have h := ih []
      simp only [if_true, total_length, List.map_cons, List.sum_cons, List.count_cons_self,
        List.length_cons, List.length_nil] at h ⊢
      simp only [String.length, List.length_reverse]
      omega
    · have h := ih (c :: cur)
      have hc1 : (c == '\n') = false := by
        simpa using hc
      rw [if_neg hc]
      rw [List.count_cons, hc1]
      simp only [List.length_cons] at h ⊢
      simp only [Bool.false_eq_true, if_false, Nat.add_zero]
      omega

theorem read_lines_length (input : String) :
    total_length (read_lines input) + newlines input = input.length := by
  have h := read_lines_from_length input.toList []
  rw [List.length_nil, Nat.zero_add] at h
  exact h

theorem accepted_eq_take (w : World) (lines : List String) :
    accepted w lines = lines.take (accepted w lines).length := by
  induction lines with
  | nil => rfl
  | cons line rest ih =>
    unfold accepted
    by_cases h : decodes w line = true
    · simp only [h, if_true, List.length_cons, List.take_succ_cons]
      rw [← ih]
    · simp [h]

theorem decodes_nonempty (w : World) (hempty : w.json_parse "" = none) (line : String)
    (h : decodes w line = true) : 1 ≤ line.length := by
  rcases line with ⟨cs⟩
  cases cs with
  | nil =>
    have : decode_line w "" = .error .parse_error := by simp [decode_line, hempty]
    have h1 : decodes w "" = false := by simp [decodes, this]
    exact absurd h (by rw [show (⟨[]⟩ : String) = "" from rfl, h1]; simp)
  | cons c rest => simp [String.length]

theorem ensure_sink_pos (w : World) (D : Option String) (s : State) (k : String) :
    (ensure_sink w D s k).pos = s.pos := by
  unfold ensure_sink
  split <;> rfl

/-- The byte count of a loop that starts with `pos = 0` and no event: `pos` is the sum of
the sizes of the lines processed, modulo the range of `size_t`; after a line the last
event is the progress report with that `pos`; and every progress report carries the
file size given and the sum of the sizes of the first `n` lines, for some `n ≥ 1`. -/
theorem main_loop_pos (w : World) (D : Option String) (fs : Nat) (lines : List String)
    (disk : Disk) :
    (main_loop w D fs lines (State.fresh disk)).1.pos =
      total_length (accepted w lines) % SIZE_RANGE ∧
    (accepted w lines ≠ [] → ∃ key,
      (main_loop w D fs lines (State.fresh disk)).1.trace.getLast? =
        some (.progress fs (main_loop w D fs lines (State.fresh disk)).1.pos key)) ∧
    (∀ fs1 p key, Event.progress fs1 p key ∈ (main_loop w D fs lines (State.fresh disk)).1.trace →
      fs1 = fs ∧ ∃ n, 1 ≤ n ∧ n ≤ (accepted w lines).length ∧
        p = total_length (lines.take n) % SIZE_RANGE) := by
  have key := main_loop_invariant w D fs
    (fun ls s =>
      s.pos = total_length ls % SIZE_RANGE ∧
      (ls ≠ [] → ∃ key, s.trace.getLast? = some (.progress fs s.pos key)) ∧
      (∀ fs1 p key, Event.progress fs1 p key ∈ s.trace →
        fs1 = fs ∧ ∃ n, 1 ≤ n ∧ n ≤ ls.length ∧ p = total_length (ls.take n) % SIZE_RANGE))
    ?_ lines [] (State.fresh disk) (by simp [valid_lines]) ?_
  · simp only [List.nil_append] at key
    obtain ⟨h1, h2, h3⟩ := key
    refine ⟨h1, h2, ?_⟩
    intro fs1 p k hmem
    obtain ⟨hfs, n, hn1, hn2, hp⟩ := h3 fs1 p k hmem
    refine ⟨hfs, n, hn1, hn2, ?_⟩
    rw [hp, accepted_eq_take w lines, List.take_take, Nat.min_eq_left hn2]
  · intro ls s line k j sink ⟨hpos, _, hall⟩ _ _ _
    have hp1 : (write_record w fs (ensure_sink w D s k) line.length k j sink).pos =
        total_length (ls ++ [line]) % SIZE_RANGE := by
      simp only [write_record, ensure_sink_pos, hpos, total_length_append]
      simp [total_length, Nat.add_mod]
    refine ⟨hp1, ?_, ?_⟩
    · intro _
      refine ⟨k, ?_⟩
      rw [step_trace]
      simp [List.getLast?_append, List.getLast?_cons_cons]
    · intro fs1 p key hmem
      rw [step_trace] at hmem
      simp only [List.mem_append, List.mem_cons, List.mem_singleton, List.not_mem_nil,
        or_false] at hmem
      rcases hmem with (hmem | hmem) | hmem | hmem
      · obtain ⟨hfs, n, hn1, hn2, hp⟩ := hall fs1 p key hmem
        refine ⟨hfs, n, hn1, by simp; omega, ?_⟩
        rw [hp, List.take_append_of_le_length hn2]
      · split at hmem <;> simp at hmem
      · cases hmem
      · simp only [Event.progress.injEq] at hmem
        obtain ⟨rfl, rfl, _⟩ := hmem
        refine ⟨rfl, ls.length + 1, by omega, by simp, ?_⟩
        rw [hp1]
        congr 2
        simp
  · refine ⟨by simp [State.fresh, total_length], by simp, ?_⟩
    intro fs1 p key h
    simp [State.fresh] at h

theorem valid_lines_mem (w : World) (lines : List String) (h : valid_lines w lines)
    (line : String) (hl : line ∈ lines) : decodes w line = true := by
  unfold valid_lines at h
  rw [List.all_eq_true] at h
  exact h line hl

/-- Every progress report of a run on an input that fits `size_t` carries the size of
the input and the sum of the sizes of the first `n` lines, for some `n ≥ 1`. -/
theorem run_progress (w : World) (D : Option String) (input : String) (disk : Disk)
    (hsize : input.length < SIZE_RANGE) (fs p : Nat) (key : String)
    (hmem : Event.progress fs p key ∈ (run w D input disk).1.trace) :
    fs = input.length ∧ ∃ n, 1 ≤ n ∧ n ≤ (accepted w (read_lines input)).length ∧
      p = total_length ((read_lines input).take n) := by
  rw [run_trace] at hmem
  obtain ⟨hfs, n, hn1, hn2, hp⟩ :=
    (main_loop_pos w D (input.length % SIZE_RANGE) (read_lines input) disk).2.2 fs p key hmem
  rw [Nat.mod_eq_of_lt hsize] at hfs
  refine ⟨hfs, n, hn1, hn2, ?_⟩
  rw [hp]
  apply Nat.mod_eq_of_lt
  have h1 := total_length_take_le (read_lines input) n
  have h2 := read_lines_length input
  omega

/-- C15, evaluated on a failing input: on the three lines of 27 bytes of the scenario of
the specification, 84 bytes with their newlines, the byte counts passed to
`print_progress` are 27, 54 and 81, not 28, 56 and 84, and the last percentage is below
100.  In general, for a valid input that fits `size_t`, every byte count passed is the
sum of the sizes of the lines read so far without their terminators, and the final
`pos` is the size of the input less its number of newlines. -/
theorem progress_pos_omits_terminators :
    input_three.length = 84 ∧ newlines input_three = 3 ∧
    progress_calls (run (demo input_three) none input_three empty_disk).1.trace =
      [(84, 27, "a"), (84, 54, "b"), (84, 81, "a")] ∧
    (print_progress 1 0 84 81 "a").percent < 100 ∧
    (∀ (w : World) (D : Option String) (input : String) (disk : Disk),
      valid_lines w (read_lines input) → input.length < SIZE_RANGE →
      (run w D input disk).1.pos + newlines input = input.length ∧
      ∀ fs p key, Event.progress fs p key ∈ (run w D input disk).1.trace →
        fs = input.length ∧ ∃ n, 1 ≤ n ∧ n ≤ (read_lines input).length ∧
          p = total_length ((read_lines input).take n)) := by
  refine ⟨by decide, by decide, by decide, by norm_num [print_progress], ?_⟩
  intro w D input disk hvalid hsize
  have hlen := read_lines_length input
  constructor
  · have hpos := (main_loop_pos w D (input.length % SIZE_RANGE) (read_lines input) disk).1
    rw [accepted_of_valid w _ hvalid] at hpos
    rw [run_pos, hpos, Nat.mod_eq_of_lt (by omega)]
    exact hlen
  · intro fs p key hmem
    obtain ⟨hfs, n, hn1, hn2, hp⟩ := run_progress w D input disk hsize fs p key hmem
    rw [accepted_of_valid w _ hvalid] at hn2
    exact ⟨hfs, n, hn1, hn2, hp⟩

/-! ## The range of the byte count -/

/-- C19: when the JSON parser rejects the empty line and the input fits `size_t`, every
call of `print_progress` of a run gets the size of the input as `filesize` and a `pos`
with `1 ≤ pos ≤ filesize`, the sum of the sizes of the lines read so far without their
terminators; so `pos` is not 0 as a divisor and the percentage lies in `(0, 100]`. -/
theorem progress_pos_in_range (w : World) (D : Option String) (input : String) (disk : Disk)
    (cur start : ℚ) (hempty : w.json_parse "" = none) (hsize : input.length < SIZE_RANGE)
    (fs pos : Nat) (key : String)
    (hcall : Event.progress fs pos key ∈ (run w D input disk).1.trace) :
    fs = input.length ∧ 1 ≤ pos ∧ pos ≤ fs ∧
    (∃ n, 1 ≤ n ∧ n ≤ (read_lines input).length ∧
      pos = total_length ((read_lines input).take n)) ∧
    (pos : ℚ) ≠ 0 ∧
    0 < (print_progress cur start fs pos key).percent ∧
    (print_progress cur start fs pos key).percent ≤ 100 := by
  obtain ⟨hfs, n, hn1, hn2, hp⟩ := run_progress w D input disk hsize fs pos key hcall
  have hacc := accepted_eq_take w (read_lines input)
  have hnl : n ≤ (read_lines input).length := by
    have : (accepted w (read_lines input)).length ≤ (read_lines input).length := by
      rw [hacc, List.length_take]
      exact Nat.min_le_right _ _
    omega
  have hge : n ≤ total_length ((accepted w (read_lines input)).take n) :=
    total_length_take_ge _
      (fun l hl => decodes_nonempty w hempty l
        (valid_lines_mem w _ (accepted_valid w (read_lines input)) l hl)) n hn2
  rw [hacc, List.take_take, Nat.min_eq_left hn2, ← hp] at hge
  have hle : pos ≤ fs := by
    have h1 := total_length_take_le (read_lines input) n
    have h2 := read_lines_length input
    omega
  have hpos1 : 1 ≤ pos := by omega
  have hq1 : (0 : ℚ) < (pos : ℚ) := by exact_mod_cast hpos1
  have hq2 : (0 : ℚ) < (fs : ℚ) := by exact_mod_cast (by omega : 0 < fs)
  have hq3 : (pos : ℚ) ≤ (fs : ℚ) := by exact_mod_cast hle
  refine ⟨hfs, hpos1, hle, ⟨n, hn1, hnl, hp⟩, ne_of_gt hq1, ?_, ?_⟩
  · simp only [print_progress]
    positivity
  · simp only [print_progress]
    have : (pos : ℚ) / (fs : ℚ) ≤ 1 := (div_le_one hq2).2 hq3
    linarith

theorem progress_pos_in_range_witness :
    (demo input_three).json_parse "" = none ∧ input_three.length < SIZE_RANGE ∧
    Event.progress 84 54 "b" ∈ (run (demo input_three) none input_three empty_disk).1.trace ∧
    1 ≤ 54 ∧ 54 ≤ 84 :=
  ⟨by rfl, by decide, by decide,
    (progress_pos_in_range (demo input_three) none input_three empty_disk 10 0
      (by rfl) (by decide) 84 54 "b" (by decide)).2.1,
    (progress_pos_in_range (demo input_three) none input_three empty_disk 10 0
      (by rfl) (by decide) 84 54 "b" (by decide)).2.2.1⟩

/-! ## Lines that do not decode -/

/-- C9, refuted as stated: the file of the key `x/y` cannot be opened (its directory does
not exist), yet the run goes on to the next line, writes the record of `a` and returns
status 0, the failed stream staying in the map; on a full disk the first write to `a.json`
and to `b.json` fails, the streams are no longer good, the third line is still processed
and the run returns status 0, leaving both files empty. -/
theorem open_failure_not_fatal_counterexample :
    (demo input_unopenable).open_for_write (sink_path none "x/y") = none ∧
    (run (demo input_unopenable) none input_unopenable empty_disk).2 = .returned 0 ∧
    exit_status (run (demo input_unopenable) none input_unopenable empty_disk).2 = 0 ∧
    (run (demo input_unopenable) none input_unopenable empty_disk).1.outfiles.map
      (fun e => (e.1, e.2.path, e.2.fd, e.2.good)) =
      [("x/y", "./x/y.json", none, false), ("a", "./a.json", some "a.json", true)] ∧
    (run (demo input_unopenable) none input_unopenable empty_disk).1.disk "a.json" =
      some (record_text "a" ++ "\n") ∧
    (run (demo_disk_full input_three) none input_three empty_disk).2 = .returned 0 ∧
    exit_status (run (demo_disk_full input_three) none input_three empty_disk).2 = 0 ∧
    (run (demo_disk_full input_three) none input_three empty_disk).1.outfiles.map
      (fun e => (e.1, e.2.fd, e.2.good)) =
      [("a", some "a.json", false), ("b", some "b.json", false)] ∧
    written_to "a" (run (demo_disk_full input_three) none input_three empty_disk).1.trace =
      [record_text "a" ++ "\n", record_text "a" ++ "\n"] ∧
    (run (demo_disk_full input_three) none input_three empty_disk).1.disk "a.json" =
      some "" ∧
    (run (demo_disk_full input_three) none input_three empty_disk).1.disk "b.json" =
      some "" := by
  decide

/-- C9 (amended): a failing open or write does not abort the run.  Whatever opens and
writes fail, a run whose lines all decode returns status 0, having executed the write
statement for every record, and every routing key keeps its sink in the map.  The sink of
a key whose open failed has no file and is not good; an insertion whose write fails
leaves the stream not good and the files as they were; a stream that is not good
ignores every insertion, so that the loop body on a record whose sink is not good
changes no file and keeps the sink, and goes on; a failing write at the destruction of a
stream changes nothing. -/
theorem io_failure_not_fatal (w : World) (D : Option String) (input : String) (disk : Disk)
    (hvalid : valid_lines w (read_lines input)) :
    (run w D input disk).2 = .returned 0 ∧
    exit_status (run w D input disk).2 = 0 ∧
    (∀ K, K ∈ keys_of w (read_lines input) →
      ∃ sink, map_find (run w D input disk).1.outfiles K = some sink) ∧
    (∀ K, written_to K (run w D input disk).1.trace =
      texts_for w K (routed w (read_lines input))) ∧
    (∀ K sink, map_find (run w D input disk).1.outfiles K = some sink →
      w.open_for_write (sink_path D K) = none → sink.fd = none ∧ sink.good = false) ∧
    (∀ (sink : Sink) f data (d : Disk), sink.good = true → sink.fd = some f →
      String.mk ((sink.pending ++ data).toList.take (w.flushed sink.pending data)) ≠ "" →
      w.write_ok f sink.offset
        (String.mk ((sink.pending ++ data).toList.take (w.flushed sink.pending data))) = false →
      (ofstream_insert w sink data d).1.good = false ∧ (ofstream_insert w sink data d).2 = d) ∧
    (∀ (sink : Sink) data (d : Disk), sink.good = false →
      ofstream_insert w sink data d = (sink, d)) ∧
    (∀ fs (s : State) line K j sink, decode_line w line = .ok (K, j) →
      map_find s.outfiles K = some sink → sink.good = false →
      ∃ s1, loop_body w D fs s line = .ok s1 ∧ s1.disk = s.disk ∧
        map_find s1.outfiles K = some sink) ∧
    (∀ (sink : Sink) f (d : Disk), sink.fd = some f →
      w.write_ok f sink.offset sink.pending = false → ofstream_close w sink d = d) := by
  have hret : (run w D input disk).2 = .returned 0 := by
    rw [run_snd]
    exact main_loop_returns w D _ _ _ hvalid
  refine ⟨hret, by rw [hret]; rfl, ?_, ?_, ?_, ?_, ?_, ?_, ?_⟩
  · intro K hK
    rw [run_outfiles]
    have hmem := ((main_loop_events w D (input.length % SIZE_RANGE) (read_lines input)
      disk).2.1 K).2 hK
    cases hf : map_find (main_loop w D (input.length % SIZE_RANGE) (read_lines input)
      (State.fresh disk)).1.outfiles K with
    | none =>
      have := (map_find_isNone_iff _ K).1 (by rw [hf]; rfl)
      exact absurd hmem this
    | some sink => exact ⟨sink, rfl⟩
  · intro K
    rw [run_trace]
    exact (main_loop_events w D _ (read_lines input) disk).2.2.2 K
  · intro K sink hf hopen
    rw [run_outfiles] at hf
    exact main_loop_sinks w D (input.length % SIZE_RANGE)
      (fun K sink => w.open_for_write (sink_path D K) = none →
        sink.fd = none ∧ sink.good = false)
      (fun k d h => by simp [ofstream_open, h])
      (fun k sink1 data d h hno =>
        ⟨(ofstream_insert_fd w sink1 data d).trans (h hno).1,
          ofstream_insert_good _ _ _ _ (h hno).2⟩)
      (read_lines input) (State.fresh disk)
      (fun k sink1 h => by simp [State.fresh, map_find] at h) K sink hf hopen
  · intro sink f data d hgood hfd hout hfail
    unfold ofstream_insert
    simp only [hgood, if_true, hfd, hout, if_false, hfail, Bool.false_eq_true, and_self]
  · intro sink data d hbad
    exact ofstream_insert_bad w sink data d hbad
  · intro fs s line K j sink hd hf hbad
    refine ⟨write_record w fs s line.length K j sink, ?_, ?_, ?_⟩
    · simp [loop_body, hd, deliver, ensure_sink_of_some w D s K sink hf, hf]
    · simp only [write_record, ofstream_insert_bad w sink _ _ hbad]
    · simp only [write_record, ofstream_insert_bad w sink _ _ hbad]
      exact map_find_assign_self _ _ _
  · intro sink f d hfd hfail
    unfold ofstream_close
    simp only [hfd, hfail, Bool.false_eq_true, if_false, ite_self]

theorem io_failure_not_fatal_witness :
    valid_lines (demo_disk_full input_three) (read_lines input_three) ∧
    (run (demo_disk_full input_three) none input_three empty_disk).2 = .returned 0 :=
  ⟨by decide,
    (io_failure_not_fatal (demo_disk_full input_three) none input_three empty_disk
      (by decide)).1⟩

end Jsplit
